import Mathlib

/-!
Verification of the atasol solver core (src/solver.hpp, src/main.cpp).

The board is `boardSize × boardSize` (7 × 7); each cell is Empty, White or
Black.  `Status` carries the cells (row-major list), the turn flag and the
incrementally maintained piece counts, mirroring the C++ `Status` class.
All operations below are direct transcriptions of the C++ code; the
definitions marked as spec-side (`specMovesAt`, `minimaxPlain`) instead
follow the natural-language specification and are compared against the
code-side definitions by the theorems at the end of the file.
-/

namespace Atasol

/-- The three possible states of each field (C++ `enum class Entry`). -/
inductive Entry : Type
  | Empty : Entry
  | White : Entry
  | Black : Entry
deriving DecidableEq, Repr

/-- The size of the game board (C++ `boardSize`). -/
abbrev boardSize : Nat := 7

/-- Upper bound for the number of possible moves of one player
(C++ `upperLimitMoves`). -/
def upperLimitMoves : Nat := boardSize * boardSize + boardSize * boardSize * 16

/-- `boardSize * boardSize` as a score, used by `score` and as the
alpha-beta window bounds (the C++ code uses
`static_cast<Score>(boardSize * boardSize)`). -/
def nsq : Int := (boardSize * boardSize : Nat)

/-- The status of a game (C++ `class Status`): the board cells in row-major
order, the turn flag (`true` = white moves, the C++ bit being 0), and the
cached piece counts `whiteScore_` / `blackScore_`. -/
structure Status : Type where
  cells : List Entry
  whiteTurn : Bool
  whiteScore : Int
  blackScore : Int
deriving DecidableEq, Repr

/-- C++ `Status::whiteMoves`. -/
def whiteMoves (s : Status) : Bool := s.whiteTurn

/-- C++ `Status::movingPlayer`. -/
def movingPlayer (s : Status) : Entry :=
  if whiteMoves s then Entry.White else Entry.Black

/-- C++ `Status::switchPlayerTurn`. -/
def switchPlayerTurn (s : Status) : Status :=
  { s with whiteTurn := !s.whiteTurn }

/-- C++ `Status::operator[]`: read one cell. Out-of-range reads (asserted
away in C++) default to `Empty`. -/
def getCell (s : Status) (pos : Nat) : Entry :=
  s.cells.getD pos Entry.Empty

/-- C++ `Status::setNoScoreAdjust`: overwrite one cell without touching the
cached counts. -/
def setNoScoreAdjust (s : Status) (pos : Nat) (v : Entry) : Status :=
  { s with cells := s.cells.set pos v }

/-- C++ `Status::set`: overwrite one cell, updating the cached counts by
the signed delta between old and new occupant; no-op when unchanged. -/
def set (s : Status) (pos : Nat) (v : Entry) : Status :=
  let old := getCell s pos
  if old = v then s
  else
    let s1 :=
      if old = Entry.White then { s with whiteScore := s.whiteScore - 1 }
      else if old = Entry.Black then { s with blackScore := s.blackScore - 1 }
      else s
    let s2 :=
      if v = Entry.White then { s1 with whiteScore := s1.whiteScore + 1 }
      else if v = Entry.Black then { s1 with blackScore := s1.blackScore + 1 }
      else s1
    setNoScoreAdjust s2 pos v

/-- One conditional neighbour flip inside `Status::spawn`: when the guard
holds and the cell at `p` has the new mover's colour `np`, it is flipped to
the placer's colour `cp` via `set`. -/
def flipStep (cp np : Entry) (t : Status) (c : Bool) (p : Nat) : Status :=
  if c && (getCell t p == np) then set t p cp else t

/-- Sequence of conditional neighbour flips of `Status::spawn`, applied in
the textual order of the C++ code. -/
def flipFold (cp np : Entry) : Status → List (Bool × Nat) → Status
  | t, [] => t
  | t, (c, p) :: rest => flipFold cp np (flipStep cp np t c p) rest

/-- The eight guarded neighbour cells inspected by `Status::spawn`, as
(bounds guard, linear position) pairs, in the C++ textual order. -/
def nbrPairs (i j : Nat) : List (Bool × Nat) :=
  [ (decide (0 < i) && decide (0 < j), (i - 1) * boardSize + j - 1),
    (decide (0 < i), (i - 1) * boardSize + j),
    (decide (0 < i) && decide (j < boardSize - 1), (i - 1) * boardSize + j + 1),
    (decide (0 < j), i * boardSize + j - 1),
    (decide (j < boardSize - 1), i * boardSize + j + 1),
    (decide (i < boardSize - 1) && decide (0 < j), (i + 1) * boardSize + j - 1),
    (decide (i < boardSize - 1), (i + 1) * boardSize + j),
    (decide (i < boardSize - 1) && decide (j < boardSize - 1), (i + 1) * boardSize + j + 1) ]

/-- C++ `Status::spawn`: put a blob of the current player at `(i, j)`,
increment that player's count, switch the turn, then flip every
neighbouring blob currently under the (new) opponent's control to the
placer's colour. -/
def spawn (s : Status) (i j : Nat) : Status :=
  let cp := movingPlayer s
  let t1 := setNoScoreAdjust s (i * boardSize + j) cp
  let t2 :=
    if whiteMoves t1 then { t1 with whiteScore := t1.whiteScore + 1 }
    else { t1 with blackScore := t1.blackScore + 1 }
  let t3 := switchPlayerTurn t2
  flipFold cp (movingPlayer t3) t3 (nbrPairs i j)

/-- C++ `Status::score`: the plain differential `whiteScore_ - blackScore_`
except that a side with no blobs loses, and a full board is won by the
majority (the exact full-board tie falls through to the differential). -/
def score (s : Status) : Int :=
  if s.blackScore = 0 then nsq
  else if s.whiteScore = 0 then -nsq
  else if s.whiteScore + s.blackScore = nsq then
    if s.blackScore < s.whiteScore then nsq
    else if s.whiteScore < s.blackScore then -nsq
    else s.whiteScore - s.blackScore
  else s.whiteScore - s.blackScore

/-- All board cells `(i, j)` in the row-major order of the two nested
loops of `generateStatuses`. -/
def allCells : List (Nat × Nat) :=
  (List.range boardSize).flatMap fun i => (List.range boardSize).map fun j => (i, j)

/-- The spawn-legality test of `generateStatuses`: at least one of the up
to eight guarded neighbours of `(i, j)` holds the moving player's colour,
written as in the C++ condition. -/
def spawnPossible (s : Status) (i j : Nat) : Bool :=
  let mp := movingPlayer s
  (decide (0 < i) &&
    ((getCell s ((i - 1) * boardSize + j) == mp) ||
     (decide (0 < j) && (getCell s ((i - 1) * boardSize + j - 1) == mp)) ||
     (decide (j < boardSize - 1) && (getCell s ((i - 1) * boardSize + j + 1) == mp))))
  ||
  ((decide (0 < j) && (getCell s (i * boardSize + j - 1) == mp)) ||
   (decide (j < boardSize - 1) && (getCell s (i * boardSize + j + 1) == mp)))
  ||
  (decide (i < boardSize - 1) &&
    ((getCell s ((i + 1) * boardSize + j) == mp) ||
     (decide (0 < j) && (getCell s ((i + 1) * boardSize + j - 1) == mp)) ||
     (decide (j < boardSize - 1) && (getCell s ((i + 1) * boardSize + j + 1) == mp))))

/-- The up to sixteen guarded jump source cells inspected by
`generateStatuses` for destination `(i, j)`, in the C++ textual order. -/
def jumpSources (i j : Nat) : List (Nat × Nat) :=
  (if decide (1 < i) && decide (1 < j) then [(i - 2, j - 2)] else [])
  ++ (if decide (1 < i) && decide (0 < j) then [(i - 2, j - 1)] else [])
  ++ (if decide (1 < i) then [(i - 2, j)] else [])
  ++ (if decide (1 < i) && decide (j < boardSize - 1) then [(i - 2, j + 1)] else [])
  ++ (if decide (1 < i) && decide (j < boardSize - 2) then [(i - 2, j + 2)] else [])
  ++ (if decide (0 < i) && decide (1 < j) then [(i - 1, j - 2)] else [])
  ++ (if decide (0 < i) && decide (j < boardSize - 2) then [(i - 1, j + 2)] else [])
  ++ (if decide (1 < j) then [(i, j - 2)] else [])
  ++ (if decide (j < boardSize - 2) then [(i, j + 2)] else [])
  ++ (if decide (i < boardSize - 1) && decide (1 < j) then [(i + 1, j - 2)] else [])
  ++ (if decide (i < boardSize - 1) && decide (j < boardSize - 2) then [(i + 1, j + 2)] else [])
  ++ (if decide (i < boardSize - 2) && decide (1 < j) then [(i + 2, j - 2)] else [])
  ++ (if decide (i < boardSize - 2) && decide (0 < j) then [(i + 2, j - 1)] else [])
  ++ (if decide (i < boardSize - 2) then [(i + 2, j)] else [])
  ++ (if decide (i < boardSize - 2) && decide (j < boardSize - 1) then [(i + 2, j + 1)] else [])
  ++ (if decide (i < boardSize - 2) && decide (j < boardSize - 2) then [(i + 2, j + 2)] else [])

/-- The successors that `generateStatuses` emits for one destination cell
`(i, j)`: nothing when the cell is occupied, otherwise the spawn successor
(when legal) followed by one jump successor per mover-coloured jump source,
in the C++ emission order. -/
def movesAt (s : Status) (i j : Nat) : List Status :=
  if getCell s (i * boardSize + j) ≠ Entry.Empty then []
  else
    (if spawnPossible s i j then [spawn s i j] else [])
    ++ ((jumpSources i j).filter
          (fun p => getCell s (p.1 * boardSize + p.2) == movingPlayer s)).map
        (fun p => spawn (set s (p.1 * boardSize + p.2) Entry.Empty) i j)

/-- C++ `generateStatuses`: all successor states of `start`, in emission
order; the C++ return value is the length of this list. -/
def generateStatuses (start : Status) : List Status :=
  allCells.flatMap fun p => movesAt start p.1 p.2

/-- Insert a status into a list ordered by the comparator `lt`
(standing in for the unspecified permutation chosen by `std::sort`). -/
def insertBy (lt : Status → Status → Bool) (x : Status) : List Status → List Status
  | [] => [x]
  | y :: ys => if lt x y then x :: y :: ys else y :: insertBy lt x ys

/-- Sort a list of statuses by the comparator `lt`. -/
def sortBy (lt : Status → Status → Bool) : List Status → List Status
  | [] => []
  | x :: xs => insertBy lt x (sortBy lt xs)

/-- The move-ordering comparator of `minimax`: descending one-ply score
when maximizing, ascending when minimizing. -/
def moveOrder (maximizing : Bool) (lhs rhs : Status) : Bool :=
  if maximizing then decide (score rhs < score lhs) else decide (score lhs < score rhs)

/-- The sort applied by `minimax` at every level other than the root. -/
def sortMoves (maximizing : Bool) (l : List Status) : List Status :=
  sortBy (moveOrder maximizing) l

/-- The alpha-beta loop of `minimax` over the (possibly sorted) successor
list: carries the running best score `ns`, best index `ni`, current index
`i` and the `alpha` / `beta` window, breaking out as soon as
`beta ≤ alpha`; returns the final best score and best index. -/
def abLoop (eval : Status → Int → Int → Int) (maximizing : Bool) :
    List Status → Int → Nat → Nat → Int → Int → Int × Nat
  | [], ns, ni, _, _, _ => (ns, ni)
  | m :: rest, ns, ni, i, alpha, beta =>
    let r := eval m alpha beta
    if maximizing then
      let ns2 := if ns < r then r else ns
      let ni2 := if ns < r then i else ni
      let alpha2 := if alpha < r then r else alpha
      if beta ≤ alpha2 then (ns2, ni2)
      else abLoop eval maximizing rest ns2 ni2 (i + 1) alpha2 beta
    else
      let ns2 := if r < ns then r else ns
      let ni2 := if r < ns then i else ni
      let beta2 := if r < beta then r else beta
      if beta2 ≤ alpha then (ns2, ni2)
      else abLoop eval maximizing rest ns2 ni2 (i + 1) alpha beta2

/-- C++ `minimax` (value and best-successor index): at `level = 0` the
static score; with no successors the static score (forced pass); otherwise
the alpha-beta loop over the successors, sorted by one-ply score at every
level except the root (`level = depth`). The returned index refers to the
looped-over list and is only consumed at the root, where no sort occurs. -/
def mmAB (depth : Nat) : Nat → Status → Int → Int → Int × Nat
  | 0, s, _, _ => (score s, 0)
  | level + 1, s, alpha, beta =>
    match generateStatuses s with
    | [] => (score s, 0)
    | m :: ms =>
      let maximizing := whiteMoves s
      let sorted := if level + 1 = depth then m :: ms else sortMoves maximizing (m :: ms)
      abLoop (fun mv a b => (mmAB depth level mv a b).1) maximizing sorted
        (if maximizing then -nsq else nsq) 0 0 alpha beta

/-- The root search: C++ `minimax<depth>(status, &nextStatus)` with the
initial window `(-boardSize², boardSize²)`, returning the value and the
chosen successor (the pass successor — same board, turn switched — when no
move exists). -/
def search (depth : Nat) (s : Status) : Int × Status :=
  match depth with
  | 0 => (score s, s)
  | d + 1 =>
    match generateStatuses s with
    | [] => (score s, switchPlayerTurn s)
    | m :: ms =>
      let r := mmAB (d + 1) (d + 1) s (-nsq) nsq
      (r.1, (m :: ms).getD r.2 s)

/-- Maximum of `x` and all elements of `l`. -/
def maxFrom (x : Int) (l : List Int) : Int := l.foldl max x

/-- Minimum of `x` and all elements of `l`. -/
def minFrom (x : Int) (l : List Int) : Int := l.foldl min x

/-- Modelled from the spec: the unpruned, unsorted exhaustive minimax over
the same game tree — static score at depth 0, forced pass (same score) at
no-move nodes, otherwise the exact maximum (White to move) or minimum
(Black to move) of the successor values, with no window, cutoff or sort. -/
def minimaxPlain : Nat → Status → Int
  | 0, s => score s
  | level + 1, s =>
    match generateStatuses s with
    | [] => score s
    | m :: ms =>
      if whiteMoves s then
        maxFrom (minimaxPlain level m) (ms.map (minimaxPlain level))
      else
        minFrom (minimaxPlain level m) (ms.map (minimaxPlain level))

/-- The board with every cell empty, White to move: the default-constructed
C++ `Status`. -/
def emptyStatus : Status :=
  { cells := List.replicate (boardSize * boardSize) Entry.Empty
    whiteTurn := true
    whiteScore := 0
    blackScore := 0 }

/-- The initial position built by `main`: White at (0,0) and (6,6), Black
at (0,6) and (6,0), White to move. -/
def initialStatus : Status :=
  set (set (set (set emptyStatus (0 * boardSize + 0) Entry.White)
        (0 * boardSize + boardSize - 1) Entry.Black)
      ((boardSize - 1) * boardSize + 0) Entry.Black)
    ((boardSize - 1) * boardSize + boardSize - 1) Entry.White

/-- Well-formed status: the cell list has exactly `boardSize²` entries and
the cached counts agree with the literal cell contents. -/
def wf (s : Status) : Prop :=
  s.cells.length = boardSize * boardSize ∧
  s.whiteScore = (s.cells.count Entry.White : Int) ∧
  s.blackScore = (s.cells.count Entry.Black : Int)

instance (s : Status) : Decidable (wf s) := by
  unfold wf; infer_instance

/-- The states reachable from the initial position by the operations of
this design: `generateStatuses` successors and forced passes at no-move
nodes. -/
inductive Reachable : Status → Prop
  | init : Reachable initialStatus
  | step {s t : Status} : Reachable s → t ∈ generateStatuses s → Reachable t
  | pass {s : Status} : Reachable s → generateStatuses s = [] → Reachable (switchPlayerTurn s)

/-- Chebyshev distance between two cells, from the spec. -/
def chebDist (p q : Nat × Nat) : Nat :=
  max (Nat.dist p.1 q.1) (Nat.dist p.2 q.2)

/-- Modelled from the spec: the on-board cells at Chebyshev distance
exactly 1 from `(i, j)`. -/
def cheb1Sources (i j : Nat) : List (Nat × Nat) :=
  allCells.filter fun p => decide (chebDist p (i, j) = 1)

/-- Modelled from the spec: the on-board cells at Chebyshev distance
exactly 2 from `(i, j)`. -/
def cheb2Sources (i j : Nat) : List (Nat × Nat) :=
  allCells.filter fun p => decide (chebDist p (i, j) = 2)

/-- Modelled from the spec: the legal successors from destination cell
`p`: for an empty destination, one spawn successor iff some
Chebyshev-distance-1 neighbour holds the mover's colour, plus one jump
successor for each Chebyshev-distance-2 cell holding the mover's colour
(vacate the source, then spawn at the destination), and nothing else. -/
def specMovesAt (s : Status) (p : Nat × Nat) : List Status :=
  if getCell s (p.1 * boardSize + p.2) ≠ Entry.Empty then []
  else
    (if (cheb1Sources p.1 p.2).any
          (fun q => getCell s (q.1 * boardSize + q.2) == movingPlayer s)
     then [spawn s p.1 p.2] else [])
    ++ ((cheb2Sources p.1 p.2).filter
          (fun q => getCell s (q.1 * boardSize + q.2) == movingPlayer s)).map
        (fun q => spawn (set s (q.1 * boardSize + q.2) Entry.Empty) p.1 p.2)

/-- The colour opposite to `e` (the opponent of a player colour). -/
def oppColor (e : Entry) : Entry :=
  match e with
  | Entry.Empty => Entry.Empty
  | Entry.White => Entry.Black
  | Entry.Black => Entry.White

/-! ### Basic lemmas about cells, `set` and `spawn` -/

theorem cells_set (s : Status) (p : Nat) (v : Entry) :
    (set s p v).cells = if getCell s p = v then s.cells else s.cells.set p v := by
  rcases ho : getCell s p <;> cases v <;> simp [set, setNoScoreAdjust, ho]

theorem length_set_cells (s : Status) (p : Nat) (v : Entry) :
    (set s p v).cells.length = s.cells.length := by
  rw [cells_set]; split <;> simp

theorem whiteTurn_set (s : Status) (p : Nat) (v : Entry) :
    (set s p v).whiteTurn = s.whiteTurn := by
  rcases ho : getCell s p <;> cases v <;> simp [set, setNoScoreAdjust, ho]

theorem getCell_set_self (s : Status) (p : Nat) (v : Entry) (hp : p < s.cells.length) :
    getCell (set s p v) p = v := by
  unfold getCell
  rw [cells_set]
  split
  · next h => rw [List.getD_eq_getElem?_getD, List.getElem?_eq_getElem hp]
              rw [getCell, List.getD_eq_getElem?_getD, List.getElem?_eq_getElem hp] at h
              simpa using h
  · rw [List.getD_eq_getElem?_getD, List.getElem?_set_self (by simpa using hp)]
    rfl

theorem getCell_set_ne (s : Status) (p q : Nat) (v : Entry) (h : q ≠ p) :
    getCell (set s p v) q = getCell s q := by
  unfold getCell
  rw [cells_set]
  split
  · rfl
  · rw [List.getD_eq_getElem?_getD, List.getElem?_set_ne (Ne.symm h),
      ← List.getD_eq_getElem?_getD]

/-- Every entry is empty, white or black, so the three counts add to the
length. -/
theorem count_three (l : List Entry) :
    l.count Entry.Empty + l.count Entry.White + l.count Entry.Black = l.length := by
  induction l with
  | nil => simp
  | cons x xs ih =>
    cases x <;> simp [List.count_cons] <;> omega

/-- Effect of `List.set` on counts, in addition form. -/
theorem count_set_add (l : List Entry) (p : Nat) (hp : p < l.length) (v e : Entry) :
    (l.set p v).count e + (if l.getD p Entry.Empty = e then 1 else 0) =
      l.count e + (if v = e then 1 else 0) := by
  induction l generalizing p with
  | nil => simp at hp
  | cons x xs ih =>
    cases p with
    | zero => simp [List.count_cons]; split <;> split <;> simp
    | succ q =>
      have hq : q < xs.length := by simpa using hp
      have := ih q hq
      simp only [List.set, List.count_cons, List.getD_cons_succ]
      omega

theorem wf_set (s : Status) (p : Nat) (v : Entry) (h : wf s) (hp : p < s.cells.length) :
    wf (set s p v) := by
  obtain ⟨hL, hW, hB⟩ := h
  have hcw := count_set_add s.cells p hp v Entry.White
  have hcb := count_set_add s.cells p hp v Entry.Black
  rw [show s.cells.getD p Entry.Empty = getCell s p from rfl] at hcw hcb
  rcases ho : getCell s p <;> cases v <;>
    simp [set, setNoScoreAdjust, ho, wf] at hcw hcb ⊢ <;>
    refine ⟨by simpa using hL, ?_, ?_⟩ <;> omega

/-! ### Lemmas about the flip sequence of `spawn` -/

theorem cells_length_flipStep (cp np : Entry) (t : Status) (c : Bool) (p : Nat) :
    (flipStep cp np t c p).cells.length = t.cells.length := by
  unfold flipStep; split
  · exact length_set_cells t p cp
  · rfl

theorem whiteTurn_flipStep (cp np : Entry) (t : Status) (c : Bool) (p : Nat) :
    (flipStep cp np t c p).whiteTurn = t.whiteTurn := by
  unfold flipStep; split
  · exact whiteTurn_set t p cp
  · rfl

theorem getCell_flipStep_ne (cp np : Entry) (t : Status) (c : Bool) (p q : Nat)
    (h : c = true → p ≠ q) : getCell (flipStep cp np t c p) q = getCell t q := by
  unfold flipStep
  split
  · next hc =>
    have hc' : c = true := by
      rcases c with _ | _
      · simp at hc
      · rfl
    exact getCell_set_ne t p q cp (Ne.symm (h hc'))
  · rfl

theorem cells_length_flipFold (cp np : Entry) (pairs : List (Bool × Nat)) (t : Status) :
    (flipFold cp np t pairs).cells.length = t.cells.length := by
  induction pairs generalizing t with
  | nil => rfl
  | cons x rest ih =>
    rcases x with ⟨c, p⟩
    rw [flipFold, ih, cells_length_flipStep]

theorem whiteTurn_flipFold (cp np : Entry) (pairs : List (Bool × Nat)) (t : Status) :
    (flipFold cp np t pairs).whiteTurn = t.whiteTurn := by
  induction pairs generalizing t with
  | nil => rfl
  | cons x rest ih =>
    rcases x with ⟨c, p⟩
    rw [flipFold, ih, whiteTurn_flipStep]

/-- Positions skipped by every (enabled) flip are unchanged. -/
theorem getCell_flipFold_miss (cp np : Entry) (pairs : List (Bool × Nat)) (t : Status)
    (q : Nat) (h : ∀ x ∈ pairs, x.1 = true → x.2 ≠ q) :
    getCell (flipFold cp np t pairs) q = getCell t q := by
  induction pairs generalizing t with
  | nil => rfl
  | cons x rest ih =>
    rcases x with ⟨c, p⟩
    rw [flipFold, ih _ fun y hy => h y (List.mem_cons_of_mem _ hy),
      getCell_flipStep_ne]
    intro hc
    exact h (c, p) (List.mem_cons_self _ _) hc

/-- The position of one enabled flip, not touched by any other flip in the
sequence, ends up flipped to `cp` exactly when it held `np`. -/
theorem getCell_flipFold_hit (cp np : Entry) (pre post : List (Bool × Nat)) (t : Status)
    (q : Nat) (hq : q < t.cells.length)
    (hpre : ∀ x ∈ pre, x.1 = true → x.2 ≠ q)
    (hpost : ∀ x ∈ post, x.1 = true → x.2 ≠ q) :
    getCell (flipFold cp np t (pre ++ (true, q) :: post)) q =
      if getCell t q = np then cp else getCell t q := by
  induction pre generalizing t with
  | nil =>
    rw [List.nil_append, flipFold,
      getCell_flipFold_miss cp np post _ q hpost]
    unfold flipStep
    by_cases h : getCell t q = np
    · simp [h, getCell_set_self t q cp hq]
    · simp [h]
  | cons x rest ih =>
    rcases x with ⟨c, p⟩
    rw [List.cons_append, flipFold]
    have hx : c = true → p ≠ q := hpre (c, p) (List.mem_cons_self _ _)
    rw [ih _ (by rw [cells_length_flipStep]; exact hq)
      fun y hy => hpre y (List.mem_cons_of_mem _ hy)]
    rw [getCell_flipStep_ne cp np t c p q hx]

/-- A `flipFold` whose enabled positions are in range preserves
well-formedness. -/
theorem wf_flipFold (cp np : Entry) (pairs : List (Bool × Nat)) (t : Status)
    (h : wf t) (hpos : ∀ x ∈ pairs, x.1 = true → x.2 < t.cells.length) :
    wf (flipFold cp np t pairs) := by
  induction pairs generalizing t with
  | nil => exact h
  | cons x rest ih =>
    rcases x with ⟨c, p⟩
    rw [flipFold]
    have hstep : wf (flipStep cp np t c p) := by
      unfold flipStep
      split
      · next hc =>
        refine wf_set t p cp h ?_
        refine hpos (c, p) (List.mem_cons_self _ _) ?_
        rcases c with _ | _
        · simp at hc
        · rfl
      · exact h
    refine ih _ hstep ?_
    intro y hy hc
    rw [cells_length_flipStep]
    exact hpos y (List.mem_cons_of_mem _ hy) hc

/-! ### Lemmas about `spawn` -/

/-- `spawn` in normal form: the destination is written, the mover's count
is bumped and the turn is switched, then the flip sequence runs with the
opponent colour as the flip target. -/
theorem spawn_eq_flipFold (s : Status) (i j : Nat) :
    spawn s i j = flipFold (movingPlayer s) (oppColor (movingPlayer s))
      { cells := s.cells.set (i * boardSize + j) (movingPlayer s)
        whiteTurn := !s.whiteTurn
        whiteScore := s.whiteScore + (if s.whiteTurn then 1 else 0)
        blackScore := s.blackScore + (if s.whiteTurn then 0 else 1) }
      (nbrPairs i j) := by
  rcases h : s.whiteTurn <;>
    simp [spawn, setNoScoreAdjust, switchPlayerTurn, whiteMoves, movingPlayer, oppColor, h]

theorem whiteTurn_spawn (s : Status) (i j : Nat) :
    (spawn s i j).whiteTurn = !s.whiteTurn := by
  rw [spawn_eq_flipFold, whiteTurn_flipFold]

theorem cells_length_spawn (s : Status) (i j : Nat) :
    (spawn s i j).cells.length = s.cells.length := by
  rw [spawn_eq_flipFold, cells_length_flipFold]
  exact List.length_set s.cells _ _

/-- Enabled neighbour positions are on the board. -/
theorem nbrPairs_pos_lt (i j : Nat) (hi : i < boardSize) (hj : j < boardSize) :
    ∀ x ∈ nbrPairs i j, x.1 = true → x.2 < boardSize * boardSize := by
  intro x hx
  simp only [nbrPairs, boardSize, List.mem_cons, List.not_mem_nil, or_false] at hx hi hj ⊢
  rcases hx with h | h | h | h | h | h | h | h <;> subst h <;>
    simp only [Bool.and_eq_true, decide_eq_true_eq] <;> intro hg <;> omega

/-- The moving player is never the empty colour. -/
theorem movingPlayer_ne_empty (s : Status) : movingPlayer s ≠ Entry.Empty := by
  unfold movingPlayer
  split <;> intro h <;> cases h

theorem wf_spawn (s : Status) (i j : Nat) (hi : i < boardSize) (hj : j < boardSize)
    (h : wf s) (he : getCell s (i * boardSize + j) = Entry.Empty) : wf (spawn s i j) := by
  obtain ⟨hL, hW, hB⟩ := h
  have hd : i * boardSize + j < s.cells.length := by
    simp only [boardSize] at hi hj ⊢
    simp only [hL, boardSize]
    omega
  have hcw := count_set_add s.cells (i * boardSize + j) hd (movingPlayer s) Entry.White
  have hcb := count_set_add s.cells (i * boardSize + j) hd (movingPlayer s) Entry.Black
  rw [show s.cells.getD (i * boardSize + j) Entry.Empty = getCell s (i * boardSize + j)
    from rfl, he] at hcw hcb
  rw [spawn_eq_flipFold]
  apply wf_flipFold
  · rcases ht : s.whiteTurn <;>
      simp [wf, movingPlayer, whiteMoves, ht, hL] at hcw hcb ⊢ <;> omega
  · intro x hx hc
    simp only [List.length_set, hL]
    exact nbrPairs_pos_lt i j hi hj x hx hc

/-! ### Score bounds -/

theorem count_white_black_le (s : Status) (hL : s.cells.length = boardSize * boardSize) :
    s.cells.count Entry.White + s.cells.count Entry.Black ≤ boardSize * boardSize := by
  have h3 := count_three s.cells
  omega

theorem score_bounds (s : Status) (h : wf s) : -nsq ≤ score s ∧ score s ≤ nsq := by
  obtain ⟨hL, hW, hB⟩ := h
  have hle := count_white_black_le s hL
  simp only [boardSize] at hle
  unfold score nsq boardSize
  rw [hW, hB]
  split_ifs <;> constructor <;> omega

/-! ### Structure of the generated successor list -/

theorem mem_allCells (p : Nat × Nat) :
    p ∈ allCells ↔ p.1 < boardSize ∧ p.2 < boardSize := by
  rcases p with ⟨i, j⟩
  simp only [allCells, List.mem_flatMap, List.mem_map, List.mem_range, Prod.mk.injEq]
  constructor
  · rintro ⟨a, ha, b, hb, rfl, rfl⟩
    exact ⟨ha, hb⟩
  · rintro ⟨hi, hj⟩
    exact ⟨i, hi, j, hj, rfl, rfl⟩

/-- On the board, the C++ jump-source enumeration is exactly the row-major
list of on-board cells at Chebyshev distance 2 from the destination. -/
theorem jumpSources_eq_cheb2 :
    ∀ p ∈ allCells, jumpSources p.1 p.2 = cheb2Sources p.1 p.2 := by decide

theorem jumpSources_mem_lt {i j : Nat} (hi : i < boardSize) (hj : j < boardSize) :
    ∀ p ∈ jumpSources i j, p.1 < boardSize ∧ p.2 < boardSize := by
  intro p hp
  rw [jumpSources_eq_cheb2 (i, j) ((mem_allCells (i, j)).2 ⟨hi, hj⟩)] at hp
  unfold cheb2Sources at hp
  exact (mem_allCells p).1 (List.mem_of_mem_filter hp)

/-- Any successor produced by `generateStatuses` is a spawn at some empty
cell, possibly after vacating a mover-coloured jump source. -/
theorem mem_generateStatuses {s t : Status} (h : t ∈ generateStatuses s) :
    ∃ i j, i < boardSize ∧ j < boardSize ∧ getCell s (i * boardSize + j) = Entry.Empty ∧
      (t = spawn s i j ∨ ∃ p : Nat × Nat, p ∈ jumpSources i j ∧
        getCell s (p.1 * boardSize + p.2) = movingPlayer s ∧
        t = spawn (set s (p.1 * boardSize + p.2) Entry.Empty) i j) := by
  unfold generateStatuses at h
  rw [List.mem_flatMap] at h
  obtain ⟨p, hp, hm⟩ := h
  obtain ⟨hi, hj⟩ := (mem_allCells p).1 hp
  refine ⟨p.1, p.2, hi, hj, ?_⟩
  unfold movesAt at hm
  split at hm
  · simp at hm
  · next hemp =>
    refine ⟨not_not.mp hemp, ?_⟩
    rw [List.mem_append] at hm
    rcases hm with hm | hm
    · left
      split at hm
      · simpa using hm
      · simp at hm
    · right
      rw [List.mem_map] at hm
      obtain ⟨q, hq, ht⟩ := hm
      rw [List.mem_filter] at hq
      exact ⟨q, hq.1, by simpa using hq.2, ht.symm⟩

theorem wf_mem_generateStatuses {s t : Status} (h : wf s) (ht : t ∈ generateStatuses s) :
    wf t := by
  obtain ⟨i, j, hi, hj, he, hcase⟩ := mem_generateStatuses ht
  rcases hcase with rfl | ⟨p, hp, hpc, rfl⟩
  · exact wf_spawn s i j hi hj h he
  · obtain ⟨hp1, hp2⟩ := jumpSources_mem_lt hi hj p hp
    have hplt : p.1 * boardSize + p.2 < s.cells.length := by
      rw [h.1]
      simp only [boardSize] at hp1 hp2 ⊢
      omega
    have hw2 : wf (set s (p.1 * boardSize + p.2) Entry.Empty) :=
      wf_set s _ Entry.Empty h hplt
    apply wf_spawn _ i j hi hj hw2
    by_cases hds : i * boardSize + j = p.1 * boardSize + p.2
    · rw [hds]
      exact getCell_set_self s _ Entry.Empty hplt
    · rw [getCell_set_ne s _ _ Entry.Empty hds]
      exact he

theorem whiteTurn_mem_generateStatuses {s t : Status} (ht : t ∈ generateStatuses s) :
    t.whiteTurn = !s.whiteTurn := by
  obtain ⟨i, j, _, _, _, hcase⟩ := mem_generateStatuses ht
  rcases hcase with rfl | ⟨p, _, _, rfl⟩
  · exact whiteTurn_spawn s i j
  · rw [whiteTurn_spawn, whiteTurn_set]

/-! ### The generator agrees with the spec-side successor description -/

theorem any_map_beta {α β : Type} (l : List α) (f : α → β) (p : β → Bool) :
    (l.map f).any p = l.any fun a => p (f a) := by
  induction l with
  | nil => rfl
  | cons x xs ih => simp [ih]

set_option maxHeartbeats 1000000 in
/-- The C++ spawn-legality disjunction, regrouped as a scan of the guarded
neighbour list. -/
theorem spawnPossible_eq_any_nbrPairs (s : Status) (i j : Nat) :
    spawnPossible s i j =
      (nbrPairs i j).any fun x => x.1 && (getCell s x.2 == movingPlayer s) := by
  unfold spawnPossible nbrPairs
  rcases h1 : decide (0 < i) <;> rcases h2 : decide (0 < j) <;>
    rcases h3 : decide (j < boardSize - 1) <;> rcases h4 : decide (i < boardSize - 1) <;>
    simp only [h1, h2, h3, h4, List.any_cons, List.any_nil, Bool.false_and,
      Bool.true_and, Bool.and_false, Bool.and_true, Bool.or_false, Bool.false_or]
  all_goals rw [Bool.eq_iff_iff]
  all_goals simp only [Bool.or_eq_true, Bool.and_eq_true, beq_iff_eq]
  all_goals tauto

/-- On the board, the enabled neighbour positions are exactly the linear
positions of the on-board cells at Chebyshev distance 1, in the same
(row-major) order. -/
theorem nbrPositions_eq :
    ∀ p ∈ allCells, ((nbrPairs p.1 p.2).filter (fun x => x.1)).map (fun x => x.2) =
      (cheb1Sources p.1 p.2).map (fun q => q.1 * boardSize + q.2) := by decide

/-- The C++ spawn-legality test agrees with the spec-side scan of the
Chebyshev-distance-1 neighbours. -/
theorem spawnPossible_eq_cheb1any (s : Status) (i j : Nat)
    (hi : i < boardSize) (hj : j < boardSize) :
    spawnPossible s i j = (cheb1Sources i j).any
      (fun q => getCell s (q.1 * boardSize + q.2) == movingPlayer s) := by
  have h2 := nbrPositions_eq (i, j) ((mem_allCells (i, j)).2 ⟨hi, hj⟩)
  calc spawnPossible s i j
      = (nbrPairs i j).any (fun x => x.1 && (getCell s x.2 == movingPlayer s)) :=
        spawnPossible_eq_any_nbrPairs s i j
    _ = ((nbrPairs i j).filter (fun x => x.1)).any
          (fun x => getCell s x.2 == movingPlayer s) := by
        rw [List.any_filter]
    _ = (((nbrPairs i j).filter (fun x => x.1)).map (fun x => x.2)).any
          (fun n => getCell s n == movingPlayer s) := by
        rw [any_map_beta]
    _ = ((cheb1Sources i j).map (fun q => q.1 * boardSize + q.2)).any
          (fun n => getCell s n == movingPlayer s) := by rw [h2]
    _ = (cheb1Sources i j).any
          (fun q => getCell s (q.1 * boardSize + q.2) == movingPlayer s) := by
        rw [any_map_beta]

theorem movesAt_eq_spec (s : Status) (p : Nat × Nat) (hp : p ∈ allCells) :
    movesAt s p.1 p.2 = specMovesAt s p := by
  obtain ⟨hi, hj⟩ := (mem_allCells p).1 hp
  unfold movesAt specMovesAt
  rw [jumpSources_eq_cheb2 p hp, spawnPossible_eq_cheb1any s p.1 p.2 hi hj]

/-! ### Cell-level characterization of the flip sequence -/

/-- Arithmetic form of `chebDist _ _ = 1`. -/
theorem chebDist_one_iff (i2 j2 i j : Nat) :
    chebDist (i2, j2) (i, j) = 1 ↔
      Nat.dist i2 i ≤ 1 ∧ Nat.dist j2 j ≤ 1 ∧ ¬(i2 = i ∧ j2 = j) := by
  simp only [chebDist, Nat.dist]
  rw [max_eq_iff]
  omega

/-- Running the flip sequence of `spawn (i, j)` over any state flips an
on-board cell exactly when it is at Chebyshev distance 1 from `(i, j)` and
holds the flip target colour `np`. -/
theorem getCell_flipFold_nbrPairs (cp np : Entry) (t : Status) (i j : Nat)
    (hi : i < boardSize) (hj : j < boardSize)
    (hL : t.cells.length = boardSize * boardSize) (i2 j2 : Nat)
    (hi2 : i2 < boardSize) (hj2 : j2 < boardSize) :
    getCell (flipFold cp np t (nbrPairs i j)) (i2 * boardSize + j2) =
      if chebDist (i2, j2) (i, j) = 1 ∧ getCell t (i2 * boardSize + j2) = np then cp
      else getCell t (i2 * boardSize + j2) := by
  have hq : i2 * boardSize + j2 < t.cells.length := by
    rw [hL]; simp only [boardSize] at hi2 hj2 ⊢; omega
  by_cases hc : chebDist (i2, j2) (i, j) = 1
  · have hd : (i2 + 1 = i ∨ i2 = i ∨ i2 = i + 1) ∧
        (j2 + 1 = j ∨ j2 = j ∨ j2 = j + 1) ∧ ¬(i2 = i ∧ j2 = j) := by
      rw [chebDist_one_iff] at hc
      simp only [Nat.dist] at hc
      omega
    have hgoal : getCell (flipFold cp np t (nbrPairs i j)) (i2 * boardSize + j2) =
        if getCell t (i2 * boardSize + j2) = np then cp
        else getCell t (i2 * boardSize + j2) := by
      simp only [boardSize] at hi hj hi2 hj2
      obtain ⟨hA, hB, hne⟩ := hd
      rcases hA with hA | hA | hA <;> rcases hB with hB | hB | hB
      · -- slot 0: (i-1, j-1)
        have hpair : ((decide (0 < i) && decide (0 < j), (i - 1) * boardSize + j - 1) :
            Bool × Nat) = (true, i2 * boardSize + j2) := by
          have hg : (decide (0 < i) && decide (0 < j)) = true := by
            simp only [Bool.and_eq_true, decide_eq_true_eq]; omega
          have hp : (i - 1) * boardSize + j - 1 = i2 * boardSize + j2 := by
            simp only [boardSize]; omega
          rw [hg, hp]
        unfold nbrPairs
        rw [hpair]
        exact getCell_flipFold_hit cp np []
          [(decide (0 < i), (i - 1) * boardSize + j),
           (decide (0 < i) && decide (j < boardSize - 1), (i - 1) * boardSize + j + 1),
           (decide (0 < j), i * boardSize + j - 1),
           (decide (j < boardSize - 1), i * boardSize + j + 1),
           (decide (i < boardSize - 1) && decide (0 < j), (i + 1) * boardSize + j - 1),
           (decide (i < boardSize - 1), (i + 1) * boardSize + j),
           (decide (i < boardSize - 1) && decide (j < boardSize - 1), (i + 1) * boardSize + j + 1)]
          t _ hq (by simp)
          (by intro x hx
              simp only [List.mem_cons, List.not_mem_nil, or_false] at hx
              rcases hx with rfl | rfl | rfl | rfl | rfl | rfl | rfl <;>
                simp only [Bool.and_eq_true, decide_eq_true_eq] <;> intro hgx <;>
                simp only [boardSize] <;> omega)
      · -- slot 1: (i-1, j)
        have hpair : ((decide (0 < i), (i - 1) * boardSize + j) :
            Bool × Nat) = (true, i2 * boardSize + j2) := by
          have hg : (decide (0 < i)) = true := by simp only [decide_eq_true_eq]; omega
          have hp : (i - 1) * boardSize + j = i2 * boardSize + j2 := by
            simp only [boardSize]; omega
          rw [hg, hp]
        unfold nbrPairs
        rw [hpair]
        exact getCell_flipFold_hit cp np
          [(decide (0 < i) && decide (0 < j), (i - 1) * boardSize + j - 1)]
          [(decide (0 < i) && decide (j < boardSize - 1), (i - 1) * boardSize + j + 1),
           (decide (0 < j), i * boardSize + j - 1),
           (decide (j < boardSize - 1), i * boardSize + j + 1),
           (decide (i < boardSize - 1) && decide (0 < j), (i + 1) * boardSize + j - 1),
           (decide (i < boardSize - 1), (i + 1) * boardSize + j),
           (decide (i < boardSize - 1) && decide (j < boardSize - 1), (i + 1) * boardSize + j + 1)]
          t _ hq
          (by intro x hx
              simp only [List.mem_cons, List.not_mem_nil, or_false] at hx
              rcases hx with rfl <;>
                simp only [Bool.and_eq_true, decide_eq_true_eq] <;> intro hgx <;>
                simp only [boardSize] <;> omega)
          (by intro x hx
              simp only [List.mem_cons, List.not_mem_nil, or_false] at hx
              rcases hx with rfl | rfl | rfl | rfl | rfl | rfl <;>
                simp only [Bool.and_eq_true, decide_eq_true_eq] <;> intro hgx <;>
                simp only [boardSize] <;> omega)
      · -- slot 2: (i-1, j+1)
        have hpair : ((decide (0 < i) && decide (j < boardSize - 1),
            (i - 1) * boardSize + j + 1) : Bool × Nat) = (true, i2 * boardSize + j2) := by
          have hg : (decide (0 < i) && decide (j < boardSize - 1)) = true := by
            simp only [Bool.and_eq_true, decide_eq_true_eq, boardSize]; omega
          have hp : (i - 1) * boardSize + j + 1 = i2 * boardSize + j2 := by
            simp only [boardSize]; omega
          rw [hg, hp]
        unfold nbrPairs
        rw [hpair]
        exact getCell_flipFold_hit cp np
          [(decide (0 < i) && decide (0 < j), (i - 1) * boardSize + j - 1),
           (decide (0 < i), (i - 1) * boardSize + j)]
          [(decide (0 < j), i * boardSize + j - 1),
           (decide (j < boardSize - 1), i * boardSize + j + 1),
           (decide (i < boardSize - 1) && decide (0 < j), (i + 1) * boardSize + j - 1),
           (decide (i < boardSize - 1), (i + 1) * boardSize + j),
           (decide (i < boardSize - 1) && decide (j < boardSize - 1), (i + 1) * boardSize + j + 1)]
          t _ hq
          (by intro x hx
              simp only [List.mem_cons, List.not_mem_nil, or_false] at hx
              rcases hx with rfl | rfl <;>
                simp only [Bool.and_eq_true, decide_eq_true_eq] <;> intro hgx <;>
                simp only [boardSize] <;> omega)
          (by intro x hx
              simp only [List.mem_cons, List.not_mem_nil, or_false] at hx
              rcases hx with rfl | rfl | rfl | rfl | rfl <;>
                simp only [Bool.and_eq_true, decide_eq_true_eq] <;> intro hgx <;>
                simp only [boardSize] <;> omega)
      · -- slot 3: (i, j-1)
        have hpair : ((decide (0 < j), i * boardSize + j - 1) :
            Bool × Nat) = (true, i2 * boardSize + j2) := by
          have hg : (decide (0 < j)) = true := by simp only [decide_eq_true_eq]; omega
          have hp : i * boardSize + j - 1 = i2 * boardSize + j2 := by
            simp only [boardSize]; omega
          rw [hg, hp]
        unfold nbrPairs
        rw [hpair]
        exact getCell_flipFold_hit cp np
          [(decide (0 < i) && decide (0 < j), (i - 1) * boardSize + j - 1),
           (decide (0 < i), (i - 1) * boardSize + j),
           (decide (0 < i) && decide (j < boardSize - 1), (i - 1) * boardSize + j + 1)]
          [(decide (j < boardSize - 1), i * boardSize + j + 1),
           (decide (i < boardSize - 1) && decide (0 < j), (i + 1) * boardSize + j - 1),
           (decide (i < boardSize - 1), (i + 1) * boardSize + j),
           (decide (i < boardSize - 1) && decide (j < boardSize - 1), (i + 1) * boardSize + j + 1)]
          t _ hq
          (by intro x hx
              simp only [List.mem_cons, List.not_mem_nil, or_false] at hx
              rcases hx with rfl | rfl | rfl <;>
                simp only [Bool.and_eq_true, decide_eq_true_eq] <;> intro hgx <;>
                simp only [boardSize] <;> omega)
          (by intro x hx
              simp only [List.mem_cons, List.not_mem_nil, or_false] at hx
              rcases hx with rfl | rfl | rfl | rfl <;>
                simp only [Bool.and_eq_true, decide_eq_true_eq] <;> intro hgx <;>
                simp only [boardSize] <;> omega)
      · exact absurd ⟨hA, hB⟩ hne
      · -- slot 4: (i, j+1)
        have hpair : ((decide (j < boardSize - 1), i * boardSize + j + 1) :
            Bool × Nat) = (true, i2 * boardSize + j2) := by
          have hg : (decide (j < boardSize - 1)) = true := by
            simp only [decide_eq_true_eq, boardSize]; omega
          have hp : i * boardSize + j + 1 = i2 * boardSize + j2 := by
            simp only [boardSize]; omega
          rw [hg, hp]
        unfold nbrPairs
        rw [hpair]
        exact getCell_flipFold_hit cp np
          [(decide (0 < i) && decide (0 < j), (i - 1) * boardSize + j - 1),
           (decide (0 < i), (i - 1) * boardSize + j),
           (decide (0 < i) && decide (j < boardSize - 1), (i - 1) * boardSize + j + 1),
           (decide (0 < j), i * boardSize + j - 1)]
          [(decide (i < boardSize - 1) && decide (0 < j), (i + 1) * boardSize + j - 1),
           (decide (i < boardSize - 1), (i + 1) * boardSize + j),
           (decide (i < boardSize - 1) && decide (j < boardSize - 1), (i + 1) * boardSize + j + 1)]
          t _ hq
          (by intro x hx
              simp only [List.mem_cons, List.not_mem_nil, or_false] at hx
              rcases hx with rfl | rfl | rfl | rfl <;>
                simp only [Bool.and_eq_true, decide_eq_true_eq] <;> intro hgx <;>
                simp only [boardSize] <;> omega)
          (by intro x hx
              simp only [List.mem_cons, List.not_mem_nil, or_false] at hx
              rcases hx with rfl | rfl | rfl <;>
                simp only [Bool.and_eq_true, decide_eq_true_eq] <;> intro hgx <;>
                simp only [boardSize] <;> omega)
      · -- slot 5: (i+1, j-1)
        have hpair : ((decide (i < boardSize - 1) && decide (0 < j),
            (i + 1) * boardSize + j - 1) : Bool × Nat) = (true, i2 * boardSize + j2) := by
          have hg : (decide (i < boardSize - 1) && decide (0 < j)) = true := by
            simp only [Bool.and_eq_true, decide_eq_true_eq, boardSize]; omega
          have hp : (i + 1) * boardSize + j - 1 = i2 * boardSize + j2 := by
            simp only [boardSize]; omega
          rw [hg, hp]
        unfold nbrPairs
        rw [hpair]
        exact getCell_flipFold_hit cp np
          [(decide (0 < i) && decide (0 < j), (i - 1) * boardSize + j - 1),
           (decide (0 < i), (i - 1) * boardSize + j),
           (decide (0 < i) && decide (j < boardSize - 1), (i - 1) * boardSize + j + 1),
           (decide (0 < j), i * boardSize + j - 1),
           (decide (j < boardSize - 1), i * boardSize + j + 1)]
          [(decide (i < boardSize - 1), (i + 1) * boardSize + j),
           (decide (i < boardSize - 1) && decide (j < boardSize - 1), (i + 1) * boardSize + j + 1)]
          t _ hq
          (by intro x hx
              simp only [List.mem_cons, List.not_mem_nil, or_false] at hx
              rcases hx with rfl | rfl | rfl | rfl | rfl <;>
                simp only [Bool.and_eq_true, decide_eq_true_eq] <;> intro hgx <;>
                simp only [boardSize] <;> omega)
          (by intro x hx
              simp only [List.mem_cons, List.not_mem_nil, or_false] at hx
              rcases hx with rfl | rfl <;>
                simp only [Bool.and_eq_true, decide_eq_true_eq] <;> intro hgx <;>
                simp only [boardSize] <;> omega)
      · -- slot 6: (i+1, j)
        have hpair : ((decide (i < boardSize - 1), (i + 1) * boardSize + j) :
            Bool × Nat) = (true, i2 * boardSize + j2) := by
          have hg : (decide (i < boardSize - 1)) = true := by
            simp only [decide_eq_true_eq, boardSize]; omega
          have hp : (i + 1) * boardSize + j = i2 * boardSize + j2 := by
            simp only [boardSize]; omega
          rw [hg, hp]
        unfold nbrPairs
        rw [hpair]
        exact getCell_flipFold_hit cp np
          [(decide (0 < i) && decide (0 < j), (i - 1) * boardSize + j - 1),
           (decide (0 < i), (i - 1) * boardSize + j),
           (decide (0 < i) && decide (j < boardSize - 1), (i - 1) * boardSize + j + 1),
           (decide (0 < j), i * boardSize + j - 1),
           (decide (j < boardSize - 1), i * boardSize + j + 1),
           (decide (i < boardSize - 1) && decide (0 < j), (i + 1) * boardSize + j - 1)]
          [(decide (i < boardSize - 1) && decide (j < boardSize - 1), (i + 1) * boardSize + j + 1)]
          t _ hq
          (by intro x hx
              simp only [List.mem_cons, List.not_mem_nil, or_false] at hx
              rcases hx with rfl | rfl | rfl | rfl | rfl | rfl <;>
                simp only [Bool.and_eq_true, decide_eq_true_eq] <;> intro hgx <;>
                simp only [boardSize] <;> omega)
          (by intro x hx
              simp only [List.mem_cons, List.not_mem_nil, or_false] at hx
              rcases hx with rfl <;>
                simp only [Bool.and_eq_true, decide_eq_true_eq] <;> intro hgx <;>
                simp only [boardSize] <;> omega)
      · -- slot 7: (i+1, j+1)
        have hpair : ((decide (i < boardSize - 1) && decide (j < boardSize - 1),
            (i + 1) * boardSize + j + 1) : Bool × Nat) = (true, i2 * boardSize + j2) := by
          have hg : (decide (i < boardSize - 1) && decide (j < boardSize - 1)) = true := by
            simp only [Bool.and_eq_true, decide_eq_true_eq, boardSize]; omega
          have hp : (i + 1) * boardSize + j + 1 = i2 * boardSize + j2 := by
            simp only [boardSize]; omega
          rw [hg, hp]
        unfold nbrPairs
        rw [hpair]
        exact getCell_flipFold_hit cp np
          [(decide (0 < i) && decide (0 < j), (i - 1) * boardSize + j - 1),
           (decide (0 < i), (i - 1) * boardSize + j),
           (decide (0 < i) && decide (j < boardSize - 1), (i - 1) * boardSize + j + 1),
           (decide (0 < j), i * boardSize + j - 1),
           (decide (j < boardSize - 1), i * boardSize + j + 1),
           (decide (i < boardSize - 1) && decide (0 < j), (i + 1) * boardSize + j - 1),
           (decide (i < boardSize - 1), (i + 1) * boardSize + j)]
          [] t _ hq
          (by intro x hx
              simp only [List.mem_cons, List.not_mem_nil, or_false] at hx
              rcases hx with rfl | rfl | rfl | rfl | rfl | rfl | rfl <;>
                simp only [Bool.and_eq_true, decide_eq_true_eq] <;> intro hgx <;>
                simp only [boardSize] <;> omega)
          (by simp)
    rw [hgoal]
    simp only [hc, true_and]
  · have hmiss : ∀ x ∈ nbrPairs i j, x.1 = true → x.2 ≠ i2 * boardSize + j2 := by
      rw [chebDist_one_iff] at hc
      simp only [Nat.dist] at hc
      simp only [boardSize] at hi hj hi2 hj2 ⊢
      intro x hx
      simp only [nbrPairs, boardSize, List.mem_cons, List.not_mem_nil, or_false] at hx
      rcases hx with rfl | rfl | rfl | rfl | rfl | rfl | rfl | rfl <;>
        simp only [Bool.and_eq_true, decide_eq_true_eq] <;> intro hgx <;> omega
    rw [getCell_flipFold_miss cp np (nbrPairs i j) t _ hmiss]
    simp only [hc, false_and, if_false]

theorem getCell_mk (cells : List Entry) (wt : Bool) (ws bs : Int) (q : Nat) :
    getCell { cells := cells, whiteTurn := wt, whiteScore := ws, blackScore := bs } q =
      cells.getD q Entry.Empty := rfl

theorem getD_set_self (l : List Entry) (p : Nat) (v : Entry) (hp : p < l.length) :
    (l.set p v).getD p Entry.Empty = v := by
  rw [List.getD_eq_getElem?_getD, List.getElem?_set_self hp]
  rfl

theorem getD_set_ne (l : List Entry) (p q : Nat) (v : Entry) (h : p ≠ q) :
    (l.set p v).getD q Entry.Empty = l.getD q Entry.Empty := by
  rw [List.getD_eq_getElem?_getD, List.getElem?_set_ne h, ← List.getD_eq_getElem?_getD]

/-- C3: `spawn(i, j)` writes the mover's colour at the destination,
switches the turn, flips exactly the on-board Chebyshev-distance-1
neighbours currently holding the opponent's colour, and leaves every cell
at Chebyshev distance 2 or more unchanged (no chained captures, no
wraparound). -/
theorem spawn_characterization (s : Status) (i j : Nat)
    (hi : i < boardSize) (hj : j < boardSize)
    (hlen : s.cells.length = boardSize * boardSize) :
    (spawn s i j).whiteTurn = !s.whiteTurn ∧
    ∀ i2 j2, i2 < boardSize → j2 < boardSize →
      getCell (spawn s i j) (i2 * boardSize + j2) =
        if i2 = i ∧ j2 = j then movingPlayer s
        else if chebDist (i2, j2) (i, j) = 1 ∧
            getCell s (i2 * boardSize + j2) = oppColor (movingPlayer s) then
          movingPlayer s
        else getCell s (i2 * boardSize + j2) := by
  refine ⟨whiteTurn_spawn s i j, ?_⟩
  intro i2 j2 hi2 hj2
  rw [spawn_eq_flipFold]
  rw [getCell_flipFold_nbrPairs (movingPlayer s) (oppColor (movingPlayer s)) _ i j hi hj
    (by simpa using hlen) i2 j2 hi2 hj2]
  rw [getCell_mk]
  by_cases hd : i2 = i ∧ j2 = j
  · obtain ⟨rfl, rfl⟩ := hd
    have hq : i2 * boardSize + j2 < s.cells.length := by
      rw [hlen]; simp only [boardSize] at hi2 hj2 ⊢; omega
    rw [getD_set_self s.cells _ _ hq]
    simp [chebDist, Nat.dist]
  · have hne : i2 * boardSize + j2 ≠ i * boardSize + j := by
      simp only [boardSize] at hi hj hi2 hj2 ⊢; omega
    rw [getD_set_ne s.cells _ _ _ (Ne.symm hne), if_neg hd]
    rfl

/-! ### Claim theorems: generator, score, invariants, pass rule -/

/-- C2: for every GameState, `generateStatuses` produces exactly the
spec-described successor list — for every empty cell, one spawn successor
iff some Chebyshev-distance-1 neighbour holds the mover's colour, plus one
jump successor per Chebyshev-distance-2 cell holding the mover's colour,
and nothing else; the returned count is the length of this list. -/
theorem generateStatuses_eq_spec (s : Status) :
    generateStatuses s = allCells.flatMap (specMovesAt s) := by
  unfold generateStatuses
  exact List.flatMap_congr fun p hp => movesAt_eq_spec s p hp

/-- C3 (claim theorem): see `spawn_characterization` above. -/
theorem spawn_characterization_witness :
    (spawn initialStatus 0 1).whiteTurn = !initialStatus.whiteTurn :=
  (spawn_characterization initialStatus 0 1 (by decide) (by decide) (by decide)).1

/-- C4: `score` is +N² when Black has no pieces, −N² when White has none
(Black having some), ±N² toward the strict majority on a full board, and
the plain differential otherwise (including the full-board tie). -/
theorem score_cases (s : Status) (h : wf s) :
    (s.cells.count Entry.Black = 0 → score s = nsq) ∧
    (s.cells.count Entry.Black ≠ 0 → s.cells.count Entry.White = 0 → score s = -nsq) ∧
    (s.cells.count Entry.Black ≠ 0 → s.cells.count Entry.White ≠ 0 →
      s.cells.count Entry.White + s.cells.count Entry.Black = boardSize * boardSize →
      s.cells.count Entry.Black < s.cells.count Entry.White → score s = nsq) ∧
    (s.cells.count Entry.Black ≠ 0 → s.cells.count Entry.White ≠ 0 →
      s.cells.count Entry.White + s.cells.count Entry.Black = boardSize * boardSize →
      s.cells.count Entry.White < s.cells.count Entry.Black → score s = -nsq) ∧
    (s.cells.count Entry.Black ≠ 0 → s.cells.count Entry.White ≠ 0 →
      (s.cells.count Entry.White + s.cells.count Entry.Black ≠ boardSize * boardSize ∨
        s.cells.count Entry.White = s.cells.count Entry.Black) →
      score s = (s.cells.count Entry.White : Int) - (s.cells.count Entry.Black : Int)) := by
  obtain ⟨hL, hW, hB⟩ := h
  unfold score nsq
  rw [hW, hB]
  refine ⟨?_, ?_, ?_, ?_, ?_⟩ <;> intros <;>
    simp only [boardSize] at * <;> split_ifs <;> first | rfl | omega

theorem score_cases_witness :
    score initialStatus =
      (initialStatus.cells.count Entry.White : Int) -
        (initialStatus.cells.count Entry.Black : Int) :=
  (score_cases initialStatus (by decide)).2.2.2.2 (by decide) (by decide)
    (Or.inl (by decide))

/-- C9: a GameState with both counts zero (such as the default-constructed
all-empty board) scores +N²: the blackCount-zero branch is checked first
and takes precedence. -/
theorem score_both_zero (s : Status) (h : wf s)
    (hw : s.cells.count Entry.White = 0) (hb : s.cells.count Entry.Black = 0) :
    score s = nsq := by
  obtain ⟨hL, hW, hB⟩ := h
  unfold score
  rw [hW, hB, hb]
  simp

theorem score_both_zero_witness : score emptyStatus = nsq :=
  score_both_zero emptyStatus (by decide) (by decide) (by decide)

theorem reachable_wf {s : Status} (h : Reachable s) : wf s := by
  induction h with
  | init => decide
  | step _ ht ih => exact wf_mem_generateStatuses ih ht
  | pass _ _ ih => exact ih

/-- C5: on every GameState reachable from the initial position by the
operations of this design, the cached counts equal the literal cell counts
and the three counts sum to N²; `set` and `spawn` preserve this (see
`wf_set` and `wf_spawn`). -/
theorem reachable_count_invariant (s : Status) (h : Reachable s) :
    s.whiteScore = (s.cells.count Entry.White : Int) ∧
    s.blackScore = (s.cells.count Entry.Black : Int) ∧
    s.whiteScore + s.blackScore + (s.cells.count Entry.Empty : Int) =
      ((boardSize * boardSize : Nat) : Int) := by
  obtain ⟨hL, hW, hB⟩ := reachable_wf h
  have h3 := count_three s.cells
  refine ⟨hW, hB, ?_⟩
  rw [hW, hB]
  simp only [boardSize] at hL h3 ⊢
  omega

theorem reachable_count_invariant_witness :
    initialStatus.whiteScore = (initialStatus.cells.count Entry.White : Int) :=
  (reachable_count_invariant initialStatus Reachable.init).1

/-- C6: on a GameState with no legal move, the search at any depth ≥ 1
returns the static score and a successor equal to the input with only the
turn flag flipped. -/
theorem search_pass (s : Status) (depth : Nat) (hm : generateStatuses s = [])
    (hd : 1 ≤ depth) :
    (search depth s).1 = score s ∧ (search depth s).2.cells = s.cells ∧
      (search depth s).2.whiteTurn = !s.whiteTurn := by
  cases depth with
  | zero => simp at hd
  | succ d =>
    simp [search, hm]
    exact ⟨rfl, rfl⟩

theorem search_pass_witness :
    (search 1 emptyStatus).1 = score emptyStatus ∧
    (search 1 emptyStatus).2.cells = emptyStatus.cells ∧
    (search 1 emptyStatus).2.whiteTurn = !emptyStatus.whiteTurn :=
  search_pass emptyStatus 1 (by decide) (by decide)

/-- C10: every successor written by `generateStatuses` has the opposite
mover (one `switchPlayerTurn` inside `spawn`), and the forced-pass
successor also flips the mover, so the side to move alternates along every
search path. -/
theorem successor_turn_alternates (s : Status) :
    (∀ t ∈ generateStatuses s, t.whiteTurn = !s.whiteTurn) ∧
    (switchPlayerTurn s).whiteTurn = !s.whiteTurn :=
  ⟨fun _ ht => whiteTurn_mem_generateStatuses ht, rfl⟩

theorem successor_turn_alternates_witness :
    (spawn initialStatus 0 1).whiteTurn = !initialStatus.whiteTurn :=
  (successor_turn_alternates initialStatus).1 (spawn initialStatus 0 1) (by decide)

/-! ### The capacity bound of the move buffer -/

theorem length_if_single {α : Type} (c : Prop) [inst : Decidable c] (x : α) :
    (if c then [x] else []).length ≤ 1 := by
  split <;> simp

theorem movesAt_length_le (s : Status) (i j : Nat) :
    (movesAt s i j).length ≤ 1 + (jumpSources i j).length := by
  unfold movesAt
  split
  · simp
  · rw [List.length_append, List.length_map]
    have h1 := length_if_single (spawnPossible s i j = true) (spawn s i j)
    have h2 := List.length_filter_le
      (fun p => getCell s (p.1 * boardSize + p.2) == movingPlayer s) (jumpSources i j)
    omega

theorem jumpSources_length_le : ∀ p ∈ allCells, (jumpSources p.1 p.2).length ≤ 16 := by
  decide

theorem flatMap_length_le {α β : Type} (l : List α) (f : α → List β) (c : Nat)
    (h : ∀ x ∈ l, (f x).length ≤ c) : (l.flatMap f).length ≤ c * l.length := by
  induction l with
  | nil => simp
  | cons x xs ih =>
    rw [List.flatMap_cons, List.length_append, List.length_cons, Nat.mul_succ]
    have hx := h x (List.mem_cons_self x xs)
    have hxs := ih fun y hy => h y (List.mem_cons_of_mem x hy)
    omega

/-- C7: the number of generated successors is always strictly below the
fixed capacity `upperLimitMoves = N² + 16·N²`, so the statically sized
move buffer never overflows and the `len < moves.size()` assertion never
fires. -/
theorem generateStatuses_length_lt (s : Status) :
    (generateStatuses s).length < upperLimitMoves := by
  unfold generateStatuses
  have hsplit : allCells = (0, 0) :: allCells.tail := by decide
  rw [hsplit, List.flatMap_cons, List.length_append]
  have h0 : (movesAt s (0, 0).1 (0, 0).2).length ≤ 6 := by
    have h1 := movesAt_length_le s 0 0
    have h2 : (jumpSources 0 0).length = 5 := by decide
    simpa using h1.trans (by omega)
  have htail : ((allCells.tail).flatMap fun p => movesAt s p.1 p.2).length ≤ 17 * 48 := by
    have hb : ∀ p ∈ allCells.tail, (movesAt s p.1 p.2).length ≤ 17 := by
      intro p hp
      have hpAll : p ∈ allCells := by
        rw [hsplit]
        exact List.mem_cons_of_mem _ hp
      have h1 := movesAt_length_le s p.1 p.2
      have h2 := jumpSources_length_le p hpAll
      omega
    have hlen : allCells.tail.length = 48 := by decide
    have := flatMap_length_le allCells.tail (fun p => movesAt s p.1 p.2) 17 hb
    rw [hlen] at this
    exact this
  unfold upperLimitMoves boardSize
  omega

/-! ### Folded maxima and minima -/

theorem le_foldl_max (l : List Int) (x : Int) : x ≤ l.foldl max x := by
  induction l generalizing x with
  | nil => exact le_refl x
  | cons y ys ih => exact le_trans (le_max_left x y) (ih (max x y))

theorem mem_le_foldl_max (l : List Int) (x y : Int) (h : y ∈ l) : y ≤ l.foldl max x := by
  induction l generalizing x with
  | nil => simp at h
  | cons z zs ih =>
    rcases List.mem_cons.1 h with rfl | h2
    · exact le_trans (le_max_right x y) (le_foldl_max zs (max x y))
    · exact ih (max x z) h2

theorem foldl_max_le (l : List Int) (x c : Int) (hx : x ≤ c) (h : ∀ y ∈ l, y ≤ c) :
    l.foldl max x ≤ c := by
  induction l generalizing x with
  | nil => exact hx
  | cons z zs ih =>
    exact ih (max x z) (max_le hx (h z (List.mem_cons_self z zs)))
      fun y hy => h y (List.mem_cons_of_mem z hy)

theorem foldl_max_choice (l : List Int) (x : Int) : l.foldl max x = x ∨ l.foldl max x ∈ l := by
  induction l generalizing x with
  | nil => exact Or.inl rfl
  | cons z zs ih =>
    rcases ih (max x z) with h | h
    · rcases max_choice x z with h2 | h2 <;> rw [List.foldl_cons, h, h2]
      · exact Or.inl rfl
      · exact Or.inr (List.mem_cons_self z zs)
    · exact Or.inr (List.mem_cons_of_mem z h)

theorem foldl_max_perm (l l2 : List Int) (h : l.Perm l2) (x : Int) :
    l.foldl max x = l2.foldl max x := by
  apply le_antisymm
  · refine foldl_max_le l x _ (le_foldl_max l2 x) fun y hy => ?_
    exact mem_le_foldl_max l2 x y (h.mem_iff.1 hy)
  · refine foldl_max_le l2 x _ (le_foldl_max l x) fun y hy => ?_
    exact mem_le_foldl_max l x y (h.mem_iff.2 hy)

theorem foldl_max_cons_absorb (x v : Int) (l : List Int) (h : x ≤ v) :
    (v :: l).foldl max x = l.foldl max v := by
  rw [List.foldl_cons, max_eq_right h]

theorem foldl_min_ge (l : List Int) (x : Int) : l.foldl min x ≤ x := by
  induction l generalizing x with
  | nil => exact le_refl x
  | cons y ys ih => exact le_trans (ih (min x y)) (min_le_left x y)

theorem foldl_min_le_mem (l : List Int) (x y : Int) (h : y ∈ l) : l.foldl min x ≤ y := by
  induction l generalizing x with
  | nil => simp at h
  | cons z zs ih =>
    rcases List.mem_cons.1 h with rfl | h2
    · exact le_trans (foldl_min_ge zs (min x y)) (min_le_right x y)
    · exact ih (min x z) h2

theorem le_foldl_min (l : List Int) (x c : Int) (hx : c ≤ x) (h : ∀ y ∈ l, c ≤ y) :
    c ≤ l.foldl min x := by
  induction l generalizing x with
  | nil => exact hx
  | cons z zs ih =>
    exact ih (min x z) (le_min hx (h z (List.mem_cons_self z zs)))
      fun y hy => h y (List.mem_cons_of_mem z hy)

theorem foldl_min_choice (l : List Int) (x : Int) : l.foldl min x = x ∨ l.foldl min x ∈ l := by
  induction l generalizing x with
  | nil => exact Or.inl rfl
  | cons z zs ih =>
    rcases ih (min x z) with h | h
    · rcases min_choice x z with h2 | h2 <;> rw [List.foldl_cons, h, h2]
      · exact Or.inl rfl
      · exact Or.inr (List.mem_cons_self z zs)
    · exact Or.inr (List.mem_cons_of_mem z h)

theorem foldl_min_perm (l l2 : List Int) (h : l.Perm l2) (x : Int) :
    l.foldl min x = l2.foldl min x := by
  apply le_antisymm
  · exact le_foldl_min l2 x _ (foldl_min_ge l x) fun y hy =>
      foldl_min_le_mem l x y (h.mem_iff.2 hy)
  · exact le_foldl_min l x _ (foldl_min_ge l2 x) fun y hy =>
      foldl_min_le_mem l2 x y (h.mem_iff.1 hy)

theorem foldl_min_cons_absorb (x v : Int) (l : List Int) (h : v ≤ x) :
    (v :: l).foldl min x = l.foldl min v := by
  rw [List.foldl_cons, min_eq_right h]

/-! ### The sort used by the move-ordering heuristic is a permutation -/

theorem insertBy_perm (lt : Status → Status → Bool) (x : Status) (l : List Status) :
    (insertBy lt x l).Perm (x :: l) := by
  induction l with
  | nil => exact List.Perm.refl _
  | cons y ys ih =>
    unfold insertBy
    split
    · exact List.Perm.refl _
    · exact ((ih.cons y).trans (List.Perm.swap x y ys)).symm.symm

theorem sortBy_perm (lt : Status → Status → Bool) (l : List Status) :
    (sortBy lt l).Perm l := by
  induction l with
  | nil => exact List.Perm.refl _
  | cons x xs ih =>
    exact (insertBy_perm lt x (sortBy lt xs)).trans (ih.cons x)

theorem sortMoves_perm (maximizing : Bool) (l : List Status) :
    (sortMoves maximizing l).Perm l := sortBy_perm _ l

/-! ### Unfolding equations and elementary facts about the alpha-beta loop -/

theorem abLoop_nil (eval : Status → Int → Int → Int) (maximizing : Bool)
    (ns : Int) (ni i : Nat) (alpha beta : Int) :
    abLoop eval maximizing [] ns ni i alpha beta = (ns, ni) := rfl

theorem abLoop_cons_max (eval : Status → Int → Int → Int) (m : Status)
    (rest : List Status) (ns : Int) (ni i : Nat) (alpha beta : Int) :
    abLoop eval true (m :: rest) ns ni i alpha beta =
      if beta ≤ (if alpha < eval m alpha beta then eval m alpha beta else alpha) then
        (if ns < eval m alpha beta then eval m alpha beta else ns,
         if ns < eval m alpha beta then i else ni)
      else abLoop eval true rest
        (if ns < eval m alpha beta then eval m alpha beta else ns)
        (if ns < eval m alpha beta then i else ni) (i + 1)
        (if alpha < eval m alpha beta then eval m alpha beta else alpha) beta := rfl

theorem abLoop_cons_min (eval : Status → Int → Int → Int) (m : Status)
    (rest : List Status) (ns : Int) (ni i : Nat) (alpha beta : Int) :
    abLoop eval false (m :: rest) ns ni i alpha beta =
      if (if eval m alpha beta < beta then eval m alpha beta else beta) ≤ alpha then
        (if eval m alpha beta < ns then eval m alpha beta else ns,
         if eval m alpha beta < ns then i else ni)
      else abLoop eval false rest
        (if eval m alpha beta < ns then eval m alpha beta else ns)
        (if eval m alpha beta < ns then i else ni) (i + 1)
        alpha (if eval m alpha beta < beta then eval m alpha beta else beta) := rfl

theorem abLoop_max_ge (eval : Status → Int → Int → Int) (l : List Status) :
    ∀ (ns : Int) (ni i : Nat) (alpha beta : Int),
      ns ≤ (abLoop eval true l ns ni i alpha beta).1 := by
  induction l with
  | nil => intro ns ni i alpha beta; rw [abLoop_nil]
  | cons m rest ih =>
    intro ns ni i alpha beta
    rw [abLoop_cons_max]
    split_ifs <;>
      first
        | (dsimp only; omega)
        | (exact le_trans (by omega) (ih _ _ _ _ _))

theorem abLoop_min_le (eval : Status → Int → Int → Int) (l : List Status) :
    ∀ (ns : Int) (ni i : Nat) (alpha beta : Int),
      (abLoop eval false l ns ni i alpha beta).1 ≤ ns := by
  induction l with
  | nil => intro ns ni i alpha beta; rw [abLoop_nil]
  | cons m rest ih =>
    intro ns ni i alpha beta
    rw [abLoop_cons_min]
    split_ifs <;>
      first
        | (dsimp only; omega)
        | (exact le_trans (ih _ _ _ _ _) (by omega))

theorem abLoop_max_bounds (eval : Status → Int → Int → Int) (l : List Status) :
    ∀ (ns : Int) (ni i : Nat) (alpha beta : Int),
      -nsq ≤ ns → ns ≤ nsq →
      (∀ m ∈ l, ∀ a b : Int, -nsq ≤ eval m a b ∧ eval m a b ≤ nsq) →
      -nsq ≤ (abLoop eval true l ns ni i alpha beta).1 ∧
        (abLoop eval true l ns ni i alpha beta).1 ≤ nsq := by
  induction l with
  | nil => intro ns ni i alpha beta h1 h2 _; rw [abLoop_nil]; exact ⟨h1, h2⟩
  | cons m rest ih =>
    intro ns ni i alpha beta h1 h2 hch
    obtain ⟨hm1, hm2⟩ := hch m (List.mem_cons_self m rest) alpha beta
    have hchr : ∀ m2 ∈ rest, ∀ a b : Int, -nsq ≤ eval m2 a b ∧ eval m2 a b ≤ nsq :=
      fun m2 hm2 => hch m2 (List.mem_cons_of_mem m hm2)
    rw [abLoop_cons_max]
    split_ifs <;>
      first
        | (dsimp only; exact ⟨by omega, by omega⟩)
        | (exact ih _ _ _ _ _ (by omega) (by omega) hchr)

theorem abLoop_min_bounds (eval : Status → Int → Int → Int) (l : List Status) :
    ∀ (ns : Int) (ni i : Nat) (alpha beta : Int),
      -nsq ≤ ns → ns ≤ nsq →
      (∀ m ∈ l, ∀ a b : Int, -nsq ≤ eval m a b ∧ eval m a b ≤ nsq) →
      -nsq ≤ (abLoop eval false l ns ni i alpha beta).1 ∧
        (abLoop eval false l ns ni i alpha beta).1 ≤ nsq := by
  induction l with
  | nil => intro ns ni i alpha beta h1 h2 _; rw [abLoop_nil]; exact ⟨h1, h2⟩
  | cons m rest ih =>
    intro ns ni i alpha beta h1 h2 hch
    obtain ⟨hm1, hm2⟩ := hch m (List.mem_cons_self m rest) alpha beta
    have hchr : ∀ m2 ∈ rest, ∀ a b : Int, -nsq ≤ eval m2 a b ∧ eval m2 a b ≤ nsq :=
      fun m2 hm2 => hch m2 (List.mem_cons_of_mem m hm2)
    rw [abLoop_cons_min]
    split_ifs <;>
      first
        | (dsimp only; exact ⟨by omega, by omega⟩)
        | (exact ih _ _ _ _ _ (by omega) (by omega) hchr)

/-! ### The Knuth-Moore property of the alpha-beta loop -/

theorem abLoopMax_km (eval : Status → Int → Int → Int) (tval : Status → Int) :
    ∀ (l : List Status) (ns : Int) (ni i : Nat) (alpha beta : Int),
      (∀ m ∈ l, ∀ a b : Int, -nsq ≤ a → b ≤ nsq → a < b →
        ((-nsq ≤ eval m a b ∧ eval m a b ≤ nsq) ∧
         (tval m ≤ a → eval m a b ≤ a) ∧
         (b ≤ tval m → b ≤ eval m a b) ∧
         (a < tval m → tval m < b → eval m a b = tval m))) →
      -nsq ≤ ns → ns ≤ alpha → alpha < beta → beta ≤ nsq →
      (((l.map tval).foldl max ns ≤ alpha →
          (abLoop eval true l ns ni i alpha beta).1 ≤ alpha) ∧
       (beta ≤ (l.map tval).foldl max ns →
          beta ≤ (abLoop eval true l ns ni i alpha beta).1) ∧
       (alpha < (l.map tval).foldl max ns → (l.map tval).foldl max ns < beta →
          (abLoop eval true l ns ni i alpha beta).1 = (l.map tval).foldl max ns)) := by
  intro l
  induction l with
  | nil =>
    intro ns ni i alpha beta hch hns hnsa hab hb
    simp only [List.map_nil, List.foldl_nil, abLoop_nil]
    exact ⟨fun h => h, fun h => by omega, fun h1 h2 => by trivial⟩
  | cons m rest ih =>
    intro ns ni i alpha beta hch hns hnsa hab hb
    obtain ⟨⟨hr1, hr2⟩, h1, h2, h3⟩ :=
      hch m (List.mem_cons_self m rest) alpha beta (le_trans hns hnsa) hb hab
    have hchr := fun m2 hm2 => hch m2 (List.mem_cons_of_mem m hm2)
    rw [abLoop_cons_max]
    simp only [List.map_cons, List.foldl_cons]
    by_cases har : alpha < eval m alpha beta
    · have htm : alpha < tval m := by
        by_contra hle
        exact absurd (h1 (not_lt.1 hle)) (not_le.2 har)
      have htmT : tval m ≤ (rest.map tval).foldl max (max ns (tval m)) :=
        le_trans (le_max_right ns (tval m)) (le_foldl_max _ _)
      have hnsr : ns < eval m alpha beta := lt_of_le_of_lt hnsa har
      by_cases hcut : beta ≤ eval m alpha beta
      · simp only [if_pos har, if_pos hcut, if_pos hnsr]
        refine ⟨fun hT => ?_, fun hT => ?_, fun hT1 hT2 => ?_⟩
        · omega
        · exact hcut
        · have hr3 : eval m alpha beta = tval m := h3 htm (by omega)
          omega
      · have hrt : eval m alpha beta = tval m := h3 htm (by
          by_contra hge
          have := h2 (not_lt.1 hge)
          omega)
        have hmax : max ns (tval m) = tval m := max_eq_right (by omega)
        simp only [if_pos har, if_neg hcut, if_pos hnsr]
        simp only [hrt, hmax]
        obtain ⟨hA, hB, hC⟩ :=
          ih (tval m) i (i + 1) (tval m) beta hchr (hrt ▸ hr1) (le_refl _)
            (hrt ▸ not_le.1 hcut) hb
        have hge := abLoop_max_ge eval rest (tval m) i (i + 1) (tval m) beta
        have h4 := le_foldl_max (List.map tval rest) (tval m)
        refine ⟨fun hT => ?_, fun hT => ?_, fun hT1 hT2 => ?_⟩
        · omega
        · exact hB hT
        · rcases eq_or_lt_of_le h4 with heq | hlt
          · have h5 := hA (le_of_eq heq.symm)
            omega
          · exact hC hlt hT2
    · have hnocut : ¬ beta ≤ alpha := not_le.2 hab
      have htm : tval m ≤ alpha := by
        by_contra hgt
        push_neg at hgt
        by_cases hbm : tval m < beta
        · have := h3 hgt hbm
          omega
        · have := h2 (not_lt.1 hbm)
          omega
      by_cases hnsr : ns < eval m alpha beta
      · simp only [if_neg har, if_neg hnocut, if_pos hnsr]
        obtain ⟨hA, hB, hC⟩ :=
          ih (eval m alpha beta) i (i + 1) alpha beta hchr hr1 (not_lt.1 har) hab hb
        refine ⟨fun hT => ?_, fun hT => ?_, fun hT1 hT2 => ?_⟩
        · refine hA (foldl_max_le _ _ _ (not_lt.1 har) fun y hy => ?_)
          exact le_trans (mem_le_foldl_max _ _ y hy) hT
        · rcases foldl_max_choice (List.map tval rest) (max ns (tval m)) with hch2 | hch2
          · have hmle : max ns (tval m) ≤ alpha := max_le hnsa htm
            rw [hch2] at hT
            omega
          · exact hB (le_trans hT (mem_le_foldl_max _ _ _ hch2))
        · rcases foldl_max_choice (List.map tval rest) (max ns (tval m)) with hch2 | hch2
          · have hmle : max ns (tval m) ≤ alpha := max_le hnsa htm
            rw [hch2] at hT1
            omega
          · have hTle := mem_le_foldl_max (List.map tval rest) (eval m alpha beta) _ hch2
            have hT2le : (List.map tval rest).foldl max (eval m alpha beta) ≤
                (List.map tval rest).foldl max (max ns (tval m)) :=
              foldl_max_le _ _ _ (by omega) fun y hy => mem_le_foldl_max _ _ y hy
            have hTT := le_antisymm hT2le hTle
            rw [← hTT]
            exact hC (by omega) (by omega)
      · simp only [if_neg har, if_neg hnocut, if_neg hnsr]
        obtain ⟨hA, hB, hC⟩ := ih ns ni (i + 1) alpha beta hchr hns hnsa hab hb
        have hnsT : ns ≤ (List.map tval rest).foldl max (max ns (tval m)) :=
          le_trans (le_max_left ns (tval m)) (le_foldl_max _ _)
        refine ⟨fun hT => ?_, fun hT => ?_, fun hT1 hT2 => ?_⟩
        · refine hA (foldl_max_le _ _ _ hnsa fun y hy => ?_)
          exact le_trans (mem_le_foldl_max _ _ y hy) hT
        · rcases foldl_max_choice (List.map tval rest) (max ns (tval m)) with hch2 | hch2
          · have hmle : max ns (tval m) ≤ alpha := max_le hnsa htm
            rw [hch2] at hT
            omega
          · exact hB (le_trans hT (mem_le_foldl_max _ _ _ hch2))
        · rcases foldl_max_choice (List.map tval rest) (max ns (tval m)) with hch2 | hch2
          · have hmle : max ns (tval m) ≤ alpha := max_le hnsa htm
            rw [hch2] at hT1
            omega
          · have hTle := mem_le_foldl_max (List.map tval rest) ns _ hch2
            have hT2le : (List.map tval rest).foldl max ns ≤
                (List.map tval rest).foldl max (max ns (tval m)) :=
              foldl_max_le _ _ _ hnsT fun y hy => mem_le_foldl_max _ _ y hy
            have hTT := le_antisymm hT2le hTle
            rw [← hTT]
            exact hC (by omega) (by omega)

theorem abLoopMin_km (eval : Status → Int → Int → Int) (tval : Status → Int) :
    ∀ (l : List Status) (ns : Int) (ni i : Nat) (alpha beta : Int),
      (∀ m ∈ l, ∀ a b : Int, -nsq ≤ a → b ≤ nsq → a < b →
        ((-nsq ≤ eval m a b ∧ eval m a b ≤ nsq) ∧
         (tval m ≤ a → eval m a b ≤ a) ∧
         (b ≤ tval m → b ≤ eval m a b) ∧
         (a < tval m → tval m < b → eval m a b = tval m))) →
      ns ≤ nsq → beta ≤ ns → alpha < beta → -nsq ≤ alpha →
      (((l.map tval).foldl min ns ≤ alpha →
          (abLoop eval false l ns ni i alpha beta).1 ≤ alpha) ∧
       (beta ≤ (l.map tval).foldl min ns →
          beta ≤ (abLoop eval false l ns ni i alpha beta).1) ∧
       (alpha < (l.map tval).foldl min ns → (l.map tval).foldl min ns < beta →
          (abLoop eval false l ns ni i alpha beta).1 = (l.map tval).foldl min ns)) := by
  intro l
  induction l with
  | nil =>
    intro ns ni i alpha beta hch hns hbns hab ha
    simp only [List.map_nil, List.foldl_nil, abLoop_nil]
    exact ⟨fun h => by omega, fun h => h, fun h1 h2 => by trivial⟩
  | cons m rest ih =>
    intro ns ni i alpha beta hch hns hbns hab ha
    obtain ⟨⟨hr1, hr2⟩, h1, h2, h3⟩ :=
      hch m (List.mem_cons_self m rest) alpha beta ha (le_trans hbns hns) hab
    have hchr := fun m2 hm2 => hch m2 (List.mem_cons_of_mem m hm2)
    rw [abLoop_cons_min]
    simp only [List.map_cons, List.foldl_cons]
    by_cases hbr : eval m alpha beta < beta
    · have htm : tval m < beta := by
        by_contra hle
        exact absurd (h2 (not_lt.1 hle)) (not_le.2 hbr)
      have htmT : (rest.map tval).foldl min (min ns (tval m)) ≤ tval m :=
        le_trans (foldl_min_ge _ _) (min_le_right ns (tval m))
      have hnsr : eval m alpha beta < ns := lt_of_lt_of_le hbr hbns
      by_cases hcut : eval m alpha beta ≤ alpha
      · simp only [if_pos hbr, if_pos hcut, if_pos hnsr]
        refine ⟨fun hT => ?_, fun hT => ?_, fun hT1 hT2 => ?_⟩
        · exact hcut
        · omega
        · have hr3 : eval m alpha beta = tval m := h3 (by omega) htm
          omega
      · have hrt : eval m alpha beta = tval m := h3 (by
          by_contra hle
          have := h1 (not_lt.1 hle)
          omega) htm
        have hmin : min ns (tval m) = tval m := min_eq_right (by omega)
        simp only [if_pos hbr, if_neg hcut, if_pos hnsr]
        simp only [hrt, hmin]
        obtain ⟨hA, hB, hC⟩ :=
          ih (tval m) i (i + 1) alpha (tval m) hchr (hrt ▸ hr2) (le_refl _)
            (hrt ▸ not_le.1 hcut) ha
        have hge := abLoop_min_le eval rest (tval m) i (i + 1) alpha (tval m)
        have h4 := foldl_min_ge (List.map tval rest) (tval m)
        refine ⟨fun hT => ?_, fun hT => ?_, fun hT1 hT2 => ?_⟩
        · exact hA hT
        · omega
        · rcases eq_or_lt_of_le h4 with heq | hlt
          · have h5 := hB (le_of_eq heq.symm)
            omega
          · exact hC hT1 hlt
    · have hnocut : ¬ beta ≤ alpha := not_le.2 hab
      have htm : beta ≤ tval m := by
        by_contra hlt
        push_neg at hlt
        by_cases ham : alpha < tval m
        · have := h3 ham hlt
          omega
        · have := h1 (not_lt.1 ham)
          omega
      by_cases hnsr : eval m alpha beta < ns
      · simp only [if_neg hbr, if_neg hnocut, if_pos hnsr]
        obtain ⟨hA, hB, hC⟩ :=
          ih (eval m alpha beta) i (i + 1) alpha beta hchr hr2 (not_lt.1 hbr) hab ha
        refine ⟨fun hT => ?_, fun hT => ?_, fun hT1 hT2 => ?_⟩
        · rcases foldl_min_choice (List.map tval rest) (min ns (tval m)) with hch2 | hch2
          · have hble : beta ≤ min ns (tval m) := le_min hbns htm
            rw [hch2] at hT
            omega
          · exact hA (le_trans (foldl_min_le_mem _ _ _ hch2) hT)
        · refine hB (le_foldl_min _ _ _ (not_lt.1 hbr) fun y hy => ?_)
          exact le_trans hT (foldl_min_le_mem _ _ y hy)
        · rcases foldl_min_choice (List.map tval rest) (min ns (tval m)) with hch2 | hch2
          · have hble : beta ≤ min ns (tval m) := le_min hbns htm
            rw [hch2] at hT2
            omega
          · have hTle := foldl_min_le_mem (List.map tval rest) (eval m alpha beta) _ hch2
            have hT2le : (List.map tval rest).foldl min (min ns (tval m)) ≤
                (List.map tval rest).foldl min (eval m alpha beta) :=
              le_foldl_min _ _ _ (by omega) fun y hy => foldl_min_le_mem _ _ y hy
            have hTT := le_antisymm hTle hT2le
            rw [← hTT]
            exact hC (by omega) (by omega)
      · simp only [if_neg hbr, if_neg hnocut, if_neg hnsr]
        obtain ⟨hA, hB, hC⟩ := ih ns ni (i + 1) alpha beta hchr hns hbns hab ha
        have hnsT : (List.map tval rest).foldl min (min ns (tval m)) ≤ ns :=
          le_trans (foldl_min_ge _ _) (min_le_left ns (tval m))
        refine ⟨fun hT => ?_, fun hT => ?_, fun hT1 hT2 => ?_⟩
        · rcases foldl_min_choice (List.map tval rest) (min ns (tval m)) with hch2 | hch2
          · have hble : beta ≤ min ns (tval m) := le_min hbns htm
            rw [hch2] at hT
            omega
          · exact hA (le_trans (foldl_min_le_mem _ _ _ hch2) hT)
        · refine hB (le_foldl_min _ _ _ hbns fun y hy => ?_)
          exact le_trans hT (foldl_min_le_mem _ _ y hy)
        · rcases foldl_min_choice (List.map tval rest) (min ns (tval m)) with hch2 | hch2
          · have hble : beta ≤ min ns (tval m) := le_min hbns htm
            rw [hch2] at hT2
            omega
          · have hTle := foldl_min_le_mem (List.map tval rest) ns _ hch2
            have hT2le : (List.map tval rest).foldl min (min ns (tval m)) ≤
                (List.map tval rest).foldl min ns :=
              le_foldl_min _ _ _ hnsT fun y hy => foldl_min_le_mem _ _ y hy
            have hTT := le_antisymm hTle hT2le
            rw [← hTT]
            exact hC (by omega) (by omega)

/-! ### Node-level lemmas for the search -/

theorem ifSort_perm (maximizing : Bool) (c : Prop) [inst : Decidable c] (l : List Status) :
    (if c then l else sortMoves maximizing l).Perm l := by
  split
  · exact List.Perm.refl l
  · exact sortMoves_perm maximizing l

theorem mmAB_zero (depth : Nat) (s : Status) (alpha beta : Int) :
    mmAB depth 0 s alpha beta = (score s, 0) := rfl

theorem mmAB_nil (depth level : Nat) (s : Status) (alpha beta : Int)
    (hgen : generateStatuses s = []) :
    mmAB depth (level + 1) s alpha beta = (score s, 0) := by
  simp only [mmAB, hgen]

theorem mmAB_cons (depth level : Nat) (s : Status) (alpha beta : Int)
    (m : Status) (ms : List Status) (hgen : generateStatuses s = m :: ms) :
    mmAB depth (level + 1) s alpha beta =
      abLoop (fun mv a b => (mmAB depth level mv a b).1) (whiteMoves s)
        (if level + 1 = depth then m :: ms else sortMoves (whiteMoves s) (m :: ms))
        (if whiteMoves s then -nsq else nsq) 0 0 alpha beta := by
  simp only [mmAB, hgen]

theorem minimaxPlain_nil (level : Nat) (s : Status) (hgen : generateStatuses s = []) :
    minimaxPlain (level + 1) s = score s := by
  simp only [minimaxPlain, hgen]

theorem minimaxPlain_cons (level : Nat) (s : Status) (m : Status) (ms : List Status)
    (hgen : generateStatuses s = m :: ms) :
    minimaxPlain (level + 1) s =
      if whiteMoves s then
        maxFrom (minimaxPlain level m) (ms.map (minimaxPlain level))
      else
        minFrom (minimaxPlain level m) (ms.map (minimaxPlain level)) := by
  simp only [minimaxPlain, hgen]

theorem minimaxPlain_bounds : ∀ (level : Nat) (s : Status), wf s →
    -nsq ≤ minimaxPlain level s ∧ minimaxPlain level s ≤ nsq := by
  intro level
  induction level with
  | zero => exact fun s hs => score_bounds s hs
  | succ level ih =>
    intro s hs
    rcases hgen : generateStatuses s with _ | ⟨m, ms⟩
    · rw [minimaxPlain_nil level s hgen]
      exact score_bounds s hs
    · have hmw : wf m := wf_mem_generateStatuses hs (by rw [hgen]; exact List.mem_cons_self m ms)
      have hmsw : ∀ m2 ∈ ms, wf m2 := fun m2 hm2 =>
        wf_mem_generateStatuses hs (by rw [hgen]; exact List.mem_cons_of_mem m hm2)
      rw [minimaxPlain_cons level s m ms hgen]
      split
      · unfold maxFrom
        constructor
        · exact le_trans (ih m hmw).1 (le_foldl_max _ _)
        · refine foldl_max_le _ _ _ (ih m hmw).2 fun y hy => ?_
          obtain ⟨m2, hm2, rfl⟩ := List.mem_map.1 hy
          exact (ih m2 (hmsw m2 hm2)).2
      · unfold minFrom
        constructor
        · refine le_foldl_min _ _ _ (ih m hmw).1 fun y hy => ?_
          obtain ⟨m2, hm2, rfl⟩ := List.mem_map.1 hy
          exact (ih m2 (hmsw m2 hm2)).1
        · exact le_trans (foldl_min_ge _ _) (ih m hmw).2

theorem mmAB_bounds (depth : Nat) : ∀ (level : Nat) (s : Status) (alpha beta : Int),
    wf s → -nsq ≤ (mmAB depth level s alpha beta).1 ∧ (mmAB depth level s alpha beta).1 ≤ nsq := by
  intro level
  induction level with
  | zero => intro s alpha beta hs; rw [mmAB_zero]; exact score_bounds s hs
  | succ level ih =>
    intro s alpha beta hs
    rcases hgen : generateStatuses s with _ | ⟨m, ms⟩
    · rw [mmAB_nil depth level s alpha beta hgen]
      exact score_bounds s hs
    · rw [mmAB_cons depth level s alpha beta m ms hgen]
      have hmem : ∀ mv ∈ (if level + 1 = depth then m :: ms
          else sortMoves (whiteMoves s) (m :: ms)), wf mv := by
        intro mv hmv
        refine wf_mem_generateStatuses hs ?_
        rw [hgen]
        exact (ifSort_perm (whiteMoves s) (level + 1 = depth) (m :: ms)).mem_iff.1 hmv
      have hch : ∀ mv ∈ (if level + 1 = depth then m :: ms
          else sortMoves (whiteMoves s) (m :: ms)), ∀ a b : Int,
          -nsq ≤ (mmAB depth level mv a b).1 ∧ (mmAB depth level mv a b).1 ≤ nsq :=
        fun mv hmv a b => ih mv a b (hmem mv hmv)
      have hnn : (0 : Int) ≤ nsq := by unfold nsq; simp
      rcases hw : whiteMoves s
      · simp only [hw, Bool.false_eq_true, if_false]
        exact abLoop_min_bounds _ _ _ _ _ _ _ (by omega) (le_refl nsq) (hw ▸ hch)
      · simp only [hw, if_true]
        exact abLoop_max_bounds _ _ _ _ _ _ _ (le_refl (-nsq)) (by omega) (hw ▸ hch)

theorem mmAB_km (depth : Nat) : ∀ (level : Nat) (s : Status) (alpha beta : Int),
    wf s → -nsq ≤ alpha → beta ≤ nsq → alpha < beta →
    ((minimaxPlain level s ≤ alpha → (mmAB depth level s alpha beta).1 ≤ alpha) ∧
     (beta ≤ minimaxPlain level s → beta ≤ (mmAB depth level s alpha beta).1) ∧
     (alpha < minimaxPlain level s → minimaxPlain level s < beta →
       (mmAB depth level s alpha beta).1 = minimaxPlain level s)) := by
  intro level
  induction level with
  | zero =>
    intro s alpha beta hs ha hb hab
    rw [mmAB_zero]
    exact ⟨fun h => h, fun h => h, fun _ _ => rfl⟩
  | succ level ih =>
    intro s alpha beta hs ha hb hab
    rcases hgen : generateStatuses s with _ | ⟨m, ms⟩
    · rw [mmAB_nil depth level s alpha beta hgen, minimaxPlain_nil level s hgen]
      exact ⟨fun h => h, fun h => h, fun _ _ => rfl⟩
    · have hmem : ∀ mv ∈ (if level + 1 = depth then m :: ms
          else sortMoves (whiteMoves s) (m :: ms)), wf mv := by
        intro mv hmv
        refine wf_mem_generateStatuses hs ?_
        rw [hgen]
        exact (ifSort_perm (whiteMoves s) (level + 1 = depth) (m :: ms)).mem_iff.1 hmv
      have hch : ∀ mv ∈ (if level + 1 = depth then m :: ms
          else sortMoves (whiteMoves s) (m :: ms)), ∀ a b : Int,
          -nsq ≤ a → b ≤ nsq → a < b →
          ((-nsq ≤ (mmAB depth level mv a b).1 ∧ (mmAB depth level mv a b).1 ≤ nsq) ∧
           (minimaxPlain level mv ≤ a → (mmAB depth level mv a b).1 ≤ a) ∧
           (b ≤ minimaxPlain level mv → b ≤ (mmAB depth level mv a b).1) ∧
           (a < minimaxPlain level mv → minimaxPlain level mv < b →
             (mmAB depth level mv a b).1 = minimaxPlain level mv)) := by
        intro mv hmv a b ha2 hb2 hab2
        exact ⟨mmAB_bounds depth level mv a b (hmem mv hmv),
          (ih mv a b (hmem mv hmv) ha2 hb2 hab2).1,
          (ih mv a b (hmem mv hmv) ha2 hb2 hab2).2.1,
          (ih mv a b (hmem mv hmv) ha2 hb2 hab2).2.2⟩
      have hmw : wf m := wf_mem_generateStatuses hs (by
        rw [hgen]; exact List.mem_cons_self m ms)
      have hpermmap : ((if level + 1 = depth then m :: ms
          else sortMoves (whiteMoves s) (m :: ms)).map (minimaxPlain level)).Perm
            ((m :: ms).map (minimaxPlain level)) :=
        (ifSort_perm (whiteMoves s) (level + 1 = depth) (m :: ms)).map (minimaxPlain level)
      rw [mmAB_cons depth level s alpha beta m ms hgen,
        minimaxPlain_cons level s m ms hgen]
      rcases hw : whiteMoves s
      · simp only [hw, Bool.false_eq_true, if_false]
        have hT : ((if level + 1 = depth then m :: ms
            else sortMoves false (m :: ms)).map (minimaxPlain level)).foldl min nsq =
              minFrom (minimaxPlain level m) (ms.map (minimaxPlain level)) := by
          rw [foldl_min_perm _ _ (hw ▸ hpermmap) nsq]
          rw [List.map_cons, foldl_min_cons_absorb _ _ _ (minimaxPlain_bounds level m hmw).2]
          rfl
        obtain ⟨hA, hB, hC⟩ :=
          abLoopMin_km (fun mv a b => (mmAB depth level mv a b).1) (minimaxPlain level)
            (if level + 1 = depth then m :: ms else sortMoves false (m :: ms))
            nsq 0 0 alpha beta (hw ▸ hch) (le_refl nsq) hb hab ha
        rw [hT] at hA hB hC
        exact ⟨hA, hB, hC⟩
      · simp only [hw, if_true]
        have hT : ((if level + 1 = depth then m :: ms
            else sortMoves true (m :: ms)).map (minimaxPlain level)).foldl max (-nsq) =
              maxFrom (minimaxPlain level m) (ms.map (minimaxPlain level)) := by
          rw [foldl_max_perm _ _ (hw ▸ hpermmap) (-nsq)]
          rw [List.map_cons, foldl_max_cons_absorb _ _ _ (minimaxPlain_bounds level m hmw).1]
          rfl
        obtain ⟨hA, hB, hC⟩ :=
          abLoopMax_km (fun mv a b => (mmAB depth level mv a b).1) (minimaxPlain level)
            (if level + 1 = depth then m :: ms else sortMoves true (m :: ms))
            (-nsq) 0 0 alpha beta (hw ▸ hch) (le_refl (-nsq)) ha hab hb
        rw [hT] at hA hB hC
        exact ⟨hA, hB, hC⟩

theorem mmAB_eq_minimaxPlain (depth level : Nat) (s : Status) (hs : wf s) :
    (mmAB depth level s (-nsq) nsq).1 = minimaxPlain level s := by
  have hnn : (0 : Int) < nsq := by unfold nsq; simp
  obtain ⟨hA, hB, hC⟩ := mmAB_km depth level s (-nsq) nsq hs (le_refl _) (le_refl _) (by omega)
  obtain ⟨hv1, hv2⟩ := mmAB_bounds depth level s (-nsq) nsq hs
  obtain ⟨ht1, ht2⟩ := minimaxPlain_bounds level s hs
  rcases lt_or_le (-nsq) (minimaxPlain level s) with h1 | h1
  · rcases lt_or_le (minimaxPlain level s) nsq with h2 | h2
    · exact hC h1 h2
    · have := hB (by omega)
      omega
  · have := hA h1
    omega

/-- C1: for every well-formed GameState and every depth, the value
returned by the alpha-beta search (with its cutoffs and its one-ply-score
sort at every ply except the root) equals the value of the unpruned,
unsorted exhaustive minimax of the same depth over the same game tree,
with the same forced-pass rule at no-move nodes. -/
theorem search_value_eq_minimaxPlain (s : Status) (depth : Nat) (h : wf s) :
    (search depth s).1 = minimaxPlain depth s := by
  cases depth with
  | zero => rfl
  | succ d =>
    rcases hgen : generateStatuses s with _ | ⟨m, ms⟩
    · simp only [search, hgen]
      rw [minimaxPlain_nil d s hgen]
    · simp only [search, hgen]
      exact mmAB_eq_minimaxPlain (d + 1) (d + 1) s h

theorem search_value_eq_minimaxPlain_witness :
    wf initialStatus ∧ (search 2 initialStatus).1 = minimaxPlain 2 initialStatus :=
  ⟨by decide, search_value_eq_minimaxPlain initialStatus 2 (by decide)⟩

/-! ### The depth-1 search from the initial position -/

/-- C8 counterexample: contrary to the claim that no jump is legal at
depth-1 move #1, the jump from White's corner (0,0) to (0,2) — a cell at
Chebyshev distance exactly 2 — is among the successors generated from the
initial position, and it vacates (0,0). -/
theorem initial_jump_legal :
    spawn (set initialStatus (0 * boardSize + 0) Entry.Empty) 0 2 ∈
        generateStatuses initialStatus ∧
      getCell initialStatus (0 * boardSize + 0) = Entry.White ∧
      getCell (spawn (set initialStatus (0 * boardSize + 0) Entry.Empty) 0 2)
          (0 * boardSize + 0) = Entry.Empty ∧
      chebDist (0, 2) (0, 0) = 2 := by
  decide

/-- C8 (amended): from the initial position, the depth-1 search for White
selects the spawn at (0,1) — a cell at Chebyshev distance 1 from White's
corner (0,0); no previously occupied cell is vacated (so the selected move
is not a jump, even though jumps are among the legal moves), and the
returned value 1 is the material differential whiteCount − blackCount of
the board after that single move. -/
theorem search_depth1_initial :
    search 1 initialStatus = (1, spawn initialStatus 0 1) ∧
    getCell initialStatus (0 * boardSize + 0) = Entry.White ∧
    chebDist (0, 1) (0, 0) = 1 ∧
    ((List.range (boardSize * boardSize)).all fun p =>
      (getCell initialStatus p == Entry.Empty) ||
      (getCell (search 1 initialStatus).2 p != Entry.Empty)) = true ∧
    (search 1 initialStatus).1 =
      ((search 1 initialStatus).2.cells.count Entry.White : Int) -
        ((search 1 initialStatus).2.cells.count Entry.Black : Int) := by
  decide

end Atasol
